import Mathlib

/-!
Verification of the conversion core of FisnarCSVWriter (`Converter.py`).

Shallow embedding conventions:
* Python floats are modelled as exact rationals (`ℚ`); Python ints as `ℤ`
  (or `ℕ` where the source only ever stores digits or counters).
* The source's heterogeneous rows (`["Output", 1, 0]`, …) become the closed
  variant type `FCommand`; the gcode `Command` collaborator (not part of the
  repository's staged sources) is modelled from the spec's interface.
* Loops that mutate lists in place become recursions with explicit state;
  a loop whose index arithmetic is not structurally decreasing carries a
  fuel parameter, with the fuel chosen (and proven or argued in comments)
  large enough that exhaustion is unreachable from the modelled callers.
* Python runtime errors (IndexError on an out-of-range subscript, TypeError
  on `None` arithmetic, ValueError from `int()`) are modelled by `Option`:
  `none` is a crash.  Python's negative-index wraparound is modelled
  faithfully (`pyGet`).
-/

namespace Fisnar

/-- A device command: one row of the source's 2d `fisnar_commands` list.
`placeholder` is the `"SET ME AFTER CONVERTING COORD SYSTEM"` row that index 1
holds until the home point is written over it. -/
inductive FCommand where
  | lineSpeed (speed : ℚ)
  | dummyPoint (x y z : ℚ)
  | lineStart (x y z : ℚ)
  | linePassing (x y z : ℚ)
  | lineEnd (x y z : ℚ)
  | output (channel : ℤ) (state : ℤ)
  | endProgram
  | zClearance (v : ℤ)
  | placeholder
  deriving DecidableEq, Repr

namespace FCommand

/-- `command[0] in Converter.XYZ_COMMANDS` together with the coordinate
fields `command[1], command[2], command[3]` (the four positional kinds). -/
def coords : FCommand → Option (ℚ × ℚ × ℚ)
  | dummyPoint x y z => some (x, y, z)
  | lineStart x y z => some (x, y, z)
  | linePassing x y z => some (x, y, z)
  | lineEnd x y z => some (x, y, z)
  | _ => none

/-- `command[0] in Converter.XYZ_COMMANDS`. -/
def isXYZ (c : FCommand) : Bool := (coords c).isSome

/-- `command[0] == "Line Speed"`. -/
def isLineSpeed : FCommand → Bool
  | lineSpeed _ => true
  | _ => false

/-- `command[0] == "Output"`. -/
def isOutput : FCommand → Bool
  | output _ _ => true
  | _ => false

/-- `command[0] == "Dummy Point"`. -/
def isDummyPoint : FCommand → Bool
  | dummyPoint _ _ _ => true
  | _ => false

end FCommand

/-- The print surface bounds `[x min, x max, y min, y max, z max]`
(`PrinterAttributes.PrintSurface`, read through its getters). -/
structure PrintSurface where
  xMin : ℚ
  xMax : ℚ
  yMin : ℚ
  yMax : ℚ
  zMax : ℚ
  deriving DecidableEq, Repr

/-- `Converter.boundaryCheck`: `True` unless some positional command falls
outside the user-specified volume; the source returns `False` at the first
violating command. -/
def boundaryCheck (ps : PrintSurface) : List FCommand → Bool
  | [] => true
  | c :: rest =>
    match FCommand.coords c with
    | some (x, y, z) =>
      if ¬ (ps.xMin ≤ x ∧ x ≤ ps.xMax) then false
      else if ¬ (ps.yMin ≤ y ∧ y ≤ ps.yMax) then false
      else if ¬ ((0 : ℚ) ≤ z ∧ z ≤ ps.zMax) then false
      else boundaryCheck ps rest
    | none => boundaryCheck ps rest

/-- The in-bounds predicate of the spec, for one positional command. -/
def inBounds (ps : PrintSurface) (c : FCommand) : Prop :=
  ∀ x y z, FCommand.coords c = some (x, y, z) →
    ps.xMin ≤ x ∧ x ≤ ps.xMax ∧ ps.yMin ≤ y ∧ y ≤ ps.yMax ∧
    (0 : ℚ) ≤ z ∧ z ≤ ps.zMax

theorem boundaryCheck_iff (ps : PrintSurface) (cmds : List FCommand) :
    boundaryCheck ps cmds = true ↔ ∀ c ∈ cmds, inBounds ps c := by
  induction cmds with
  | nil => simp [boundaryCheck]
  | cons c rest ih =>
    have hstep : boundaryCheck ps (c :: rest) = true ↔
        (inBounds ps c ∧ boundaryCheck ps rest = true) := by
      cases h : FCommand.coords c with
      | none =>
        simp only [boundaryCheck, h]
        have : inBounds ps c := by intro x y z hxyz; rw [h] at hxyz; cases hxyz
        simp [this]
      | some xyz =>
        obtain ⟨x, y, z⟩ := xyz
        have hib : inBounds ps c ↔
            ((ps.xMin ≤ x ∧ x ≤ ps.xMax) ∧ (ps.yMin ≤ y ∧ y ≤ ps.yMax) ∧
              ((0 : ℚ) ≤ z ∧ z ≤ ps.zMax)) := by
          constructor
          · intro hb
            have := hb x y z h
            tauto
          · intro hb a b cc habc
            rw [h] at habc
            obtain ⟨rfl, rfl, rfl⟩ : x = a ∧ y = b ∧ z = cc := by
              simpa [Prod.ext_iff] using habc
            tauto
        simp only [boundaryCheck, h, hib]
        split_ifs with h1 h2 h3 <;> simp_all
    rw [hstep, ih]
    simp only [List.mem_cons]
    constructor
    · rintro ⟨hc, hrest⟩ d (rfl | hd)
      · exact hc
      · exact hrest d hd
    · intro hall
      exact ⟨hall c (Or.inl rfl), fun d hd => hall d (Or.inr hd)⟩

/-- The inner while loop of `Converter.optimizeFisnarOutputCommands` for one
fixed `output` channel: `st` is the `output_state` variable (`none` until the
channel's first output command is seen and retained); a command whose state
equals the most recently retained state for this channel is deleted. -/
def outputPass (out : ℤ) : Option ℤ → List FCommand → List FCommand
  | _, [] => []
  | st, .output ch s :: rest =>
    if ch = out then
      match st with
      | none => .output ch s :: outputPass out (some s) rest
      | some s0 =>
        if s = s0 then outputPass out st rest
        else .output ch s :: outputPass out (some s) rest
    else .output ch s :: outputPass out st rest
  | st, c :: rest => c :: outputPass out st rest

/-- `Converter.optimizeFisnarOutputCommands`: the channel passes run for
`output` = 1, 2, 3, 4 in turn over the (mutated) list. -/
def optimizeFisnarOutputCommands (cmds : List FCommand) : List FCommand :=
  outputPass 4 none (outputPass 3 none (outputPass 2 none (outputPass 1 none cmds)))

theorem outputPass_idem (a : ℤ) :
    ∀ (l : List FCommand) (st : Option ℤ),
      outputPass a st (outputPass a st l) = outputPass a st l := by
  intro l
  induction l with
  | nil => intro st; rfl
  | cons c rest ih =>
    intro st
    cases c with
    | output ch s =>
      by_cases hca : ch = a
      · cases st with
        | none => simp only [outputPass, if_pos hca, ih]
        | some s0 =>
          by_cases hs : s = s0
          · simp only [outputPass, if_pos hca, if_pos hs, ih]
          · simp only [outputPass, if_pos hca, if_neg hs, ih]
      · simp only [outputPass, if_neg hca, ih]
    | lineSpeed s => simp only [outputPass, ih]
    | dummyPoint x y z => simp only [outputPass, ih]
    | lineStart x y z => simp only [outputPass, ih]
    | linePassing x y z => simp only [outputPass, ih]
    | lineEnd x y z => simp only [outputPass, ih]
    | endProgram => simp only [outputPass, ih]
    | zClearance v => simp only [outputPass, ih]
    | placeholder => simp only [outputPass, ih]

theorem outputPass_comm (a b : ℤ) (hab : a ≠ b) :
    ∀ (l : List FCommand) (sa sb : Option ℤ),
      outputPass a sa (outputPass b sb l) = outputPass b sb (outputPass a sa l) := by
  intro l
  induction l with
  | nil => intro sa sb; rfl
  | cons c rest ih =>
    intro sa sb
    cases c with
    | output ch s =>
      by_cases hca : ch = a
      · have hcb : ¬ ch = b := by rw [hca]; exact hab
        cases sa with
        | none => simp only [outputPass, if_pos hca, if_neg hcb, ih]
        | some sa0 =>
          by_cases hs : s = sa0
          · simp only [outputPass, if_pos hca, if_neg hcb, if_pos hs, ih]
          · simp only [outputPass, if_pos hca, if_neg hcb, if_neg hs, ih]
      · by_cases hcb : ch = b
        · cases sb with
          | none => simp only [outputPass, if_pos hcb, if_neg hca, ih]
          | some sb0 =>
            by_cases hs : s = sb0
            · simp only [outputPass, if_pos hcb, if_neg hca, if_pos hs, ih]
            · simp only [outputPass, if_pos hcb, if_neg hca, if_neg hs, ih]
        · simp only [outputPass, if_neg hca, if_neg hcb, ih]
    | lineSpeed s => simp only [outputPass, ih]
    | dummyPoint x y z => simp only [outputPass, ih]
    | lineStart x y z => simp only [outputPass, ih]
    | linePassing x y z => simp only [outputPass, ih]
    | lineEnd x y z => simp only [outputPass, ih]
    | endProgram => simp only [outputPass, ih]
    | zClearance v => simp only [outputPass, ih]
    | placeholder => simp only [outputPass, ih]

theorem outputPass_fix_optimize (a : ℤ) (ha : a = 1 ∨ a = 2 ∨ a = 3 ∨ a = 4)
    (cmds : List FCommand) :
    outputPass a none (optimizeFisnarOutputCommands cmds) =
      optimizeFisnarOutputCommands cmds := by
  unfold optimizeFisnarOutputCommands
  rcases ha with rfl | rfl | rfl | rfl
  · rw [outputPass_comm 1 4 (by decide), outputPass_comm 1 3 (by decide),
      outputPass_comm 1 2 (by decide), outputPass_idem]
  · rw [outputPass_comm 2 4 (by decide), outputPass_comm 2 3 (by decide),
      outputPass_idem]
  · rw [outputPass_comm 3 4 (by decide), outputPass_idem]
  · rw [outputPass_idem]

/-- C9: output collapse is idempotent — running
`optimizeFisnarOutputCommands` twice yields exactly the list that running it
once yields, for every command list. -/
theorem C9_output_collapse_idempotent (cmds : List FCommand) :
    optimizeFisnarOutputCommands (optimizeFisnarOutputCommands cmds) =
      optimizeFisnarOutputCommands cmds := by
  conv_lhs => rw [optimizeFisnarOutputCommands]
  rw [outputPass_fix_optimize 1 (by tauto),
    outputPass_fix_optimize 2 (by tauto),
    outputPass_fix_optimize 3 (by tauto),
    outputPass_fix_optimize 4 (by tauto)]

/-- Python list subscript `l[i]`: non-negative indices in `[0, len)` and
negative indices in `[-len, 0)` (which wrap to `len + i`) succeed; everything
else raises IndexError, modelled as `none`. -/
def pyGet {α : Type} (l : List α) (i : ℤ) : Option α :=
  if 0 ≤ i then l[i.toNat]?
  else if 0 ≤ (l.length : ℤ) + i then l[((l.length : ℤ) + i).toNat]?
  else none

/-- The position `l.pop(i)` removes, for an `i` accepted by `pyGet`. -/
def pyIdx {α : Type} (l : List α) (i : ℤ) : ℕ :=
  if 0 ≤ i then i.toNat else ((l.length : ℤ) + i).toNat

/-- The two nested while loops of `Converter.optimizeLineSpeedCommands`.
`inner = false` is the outer loop (`while i >= 0`), `inner = true` the inner
one (`while fisnar_commands[i][0] == "Line Speed"`), which has no lower bound
check on `i` before subscripting.  Result: `none` when the fuel runs out
(unreachable from `optimizeLineSpeedCommands`, see `lsLoop_fuel_large`),
`some none` when a subscript raises IndexError, `some (some l)` on normal
termination. -/
def lsLoop : ℕ → Bool → List FCommand → ℤ → Option (Option (List FCommand))
  | 0, _, _, _ => none
  | fuel + 1, false, cmds, i =>
    if i < 0 then some (some cmds)
    else
      match pyGet cmds i with
      | none => some none
      | some c =>
        if c.isLineSpeed then lsLoop fuel true cmds (i - 1)
        else lsLoop fuel false cmds (i - 1)
  | fuel + 1, true, cmds, i =>
    match pyGet cmds i with
    | none => some none
    | some c =>
      if c.isLineSpeed then lsLoop fuel true (cmds.eraseIdx (pyIdx cmds i)) (i - 1)
      else lsLoop fuel false cmds i

/-- `Converter.optimizeLineSpeedCommands`.  The fuel `4 * length + 4` strictly
dominates the loop measure (each iteration decreases
`2 * (i + length) + (if inner then 1 else 0)` and the loop stops or crashes
before `i + length` goes below `-1`), so the `none` (fuel) case never occurs;
`none` here therefore means exactly a Python IndexError. -/
def optimizeLineSpeedCommands (cmds : List FCommand) : Option (List FCommand) :=
  (lsLoop (4 * cmds.length + 4) false cmds ((cmds.length : ℤ) - 1)).bind id

/-- The loop measure of `lsLoop`: strictly decreases at every iteration. -/
def lsMeasure (inner : Bool) (cmds : List FCommand) (i : ℤ) : ℕ :=
  (2 * (i + cmds.length) + (if inner then 1 else 0)).toNat

theorem pyGet_of_nonneg {α : Type} (l : List α) {i : ℤ} (h : 0 ≤ i) :
    pyGet l i = l[i.toNat]? := by
  simp [pyGet, h]

theorem pyGet_neg_one {α : Type} (l : List α) (h : l ≠ []) :
    pyGet l (-1) = l.getLast? := by
  have hlen : 1 ≤ l.length := List.length_pos.mpr h
  have h1 : ¬ (0 : ℤ) ≤ -1 := by omega
  have h2 : (0 : ℤ) ≤ (l.length : ℤ) + -1 := by omega
  have h3 : ((l.length : ℤ) + -1).toNat = l.length - 1 := by omega
  rw [pyGet, if_neg h1, if_pos h2, h3, List.getLast?_eq_getElem?]

theorem getLast?_eraseIdx {α : Type} (l : List α) (k : ℕ) (h : k + 1 < l.length) :
    (l.eraseIdx k).getLast? = l.getLast? := by
  have hsplit : l = l.take (k + 1) ++ l.drop (k + 1) := (List.take_append_drop _ l).symm
  have hklt : k < (l.take (k + 1)).length := by
    rw [List.length_take]; omega
  have hdropne : l.drop (k + 1) ≠ [] := by
    intro hd
    have := List.length_drop (k + 1) l
    rw [hd] at this
    simp at this
    omega
  obtain ⟨d, hd⟩ : ∃ d, (l.drop (k + 1)).getLast? = some d :=
    Option.isSome_iff_exists.mp (List.getLast?_isSome.mpr hdropne)
  conv_lhs => rw [hsplit]
  rw [List.eraseIdx_append_of_lt_length hklt, List.getLast?_append, hd]
  conv_rhs => rw [hsplit]
  rw [List.getLast?_append, hd]
  rfl

theorem lsLoop_safe :
    ∀ (fuel : ℕ) (inner : Bool) (cmds : List FCommand) (i : ℤ),
      cmds ≠ [] →
      (∀ c, cmds.getLast? = some c → c.isLineSpeed = false) →
      -1 ≤ i →
      i ≤ (cmds.length : ℤ) - (if inner then 2 else 1) →
      lsMeasure inner cmds i < fuel →
      ∃ r, lsLoop fuel inner cmds i = some (some r) := by
  intro fuel
  induction fuel with
  | zero => intro inner cmds i _ _ _ _ hf; omega
  | succ fuel ih =>
    intro inner cmds i hne hlast hi1 hi2 hf
    have hlen : 1 ≤ cmds.length := List.length_pos.mpr hne
    cases inner with
    | false =>
      have hi2a : i ≤ (cmds.length : ℤ) - 1 := by simpa using hi2
      have hfa : (2 * (i + cmds.length)).toNat < fuel + 1 := by
        simpa [lsMeasure] using hf
      by_cases hneg : i < 0
      · exact ⟨cmds, by simp [lsLoop, hneg]⟩
      · push_neg at hneg
        have hilen : i.toNat < cmds.length := by omega
        have hget : pyGet cmds i = some cmds[i.toNat] := by
          rw [pyGet_of_nonneg cmds hneg]
          exact List.getElem?_eq_getElem hilen
        by_cases hls : cmds[i.toNat].isLineSpeed = true
        · have step : lsLoop (fuel + 1) false cmds i = lsLoop fuel true cmds (i - 1) := by
            simp only [lsLoop, if_neg (by omega : ¬ i < 0), hget, hls, if_true]
          rw [step]
          exact ih true cmds (i - 1) hne hlast (by omega) (by simp; omega)
            (by simp [lsMeasure]; omega)
        · have step : lsLoop (fuel + 1) false cmds i = lsLoop fuel false cmds (i - 1) := by
            simp only [lsLoop, if_neg (by omega : ¬ i < 0), hget, hls, if_false,
              Bool.false_eq_true]
          rw [step]
          exact ih false cmds (i - 1) hne hlast (by omega) (by simp; omega)
            (by simp [lsMeasure]; omega)
    | true =>
      have hi2a : i ≤ (cmds.length : ℤ) - 2 := by simpa using hi2
      have hfa : (2 * (i + cmds.length) + 1).toNat < fuel + 1 := by
        simpa [lsMeasure] using hf
      rcases (by omega : i = -1 ∨ 0 ≤ i) with rfl | hpos
      · obtain ⟨c, hc⟩ : ∃ c, cmds.getLast? = some c :=
          Option.isSome_iff_exists.mp (List.getLast?_isSome.mpr hne)
        have hgl : pyGet cmds (-1) = some c := by rw [pyGet_neg_one cmds hne, hc]
        have hnotls : c.isLineSpeed = false := hlast c hc
        have step : lsLoop (fuel + 1) true cmds (-1) = lsLoop fuel false cmds (-1) := by
          simp only [lsLoop, hgl, hnotls, Bool.false_eq_true, if_false]
        rw [step]
        exact ih false cmds (-1) hne hlast (by omega)
          (by simp only [Bool.false_eq_true, if_false]; omega)
          (by simp [lsMeasure]; omega)
      · have hilen : i.toNat < cmds.length := by omega
        have hget : pyGet cmds i = some cmds[i.toNat] := by
          rw [pyGet_of_nonneg cmds hpos]
          exact List.getElem?_eq_getElem hilen
        by_cases hls : cmds[i.toNat].isLineSpeed = true
        · have hidx : pyIdx cmds i = i.toNat := by simp [pyIdx, hpos]
          have hklt : i.toNat + 1 < cmds.length := by omega
          have herase_len : (cmds.eraseIdx i.toNat).length = cmds.length - 1 := by
            rw [List.length_eraseIdx, if_pos hilen]
          have herase_ne : cmds.eraseIdx i.toNat ≠ [] := by
            intro hnil
            rw [hnil] at herase_len
            simp at herase_len
            omega
          have herase_last : ∀ c, (cmds.eraseIdx i.toNat).getLast? = some c →
              c.isLineSpeed = false := by
            intro c hc
            rw [getLast?_eraseIdx cmds i.toNat hklt] at hc
            exact hlast c hc
          have step : lsLoop (fuel + 1) true cmds i =
              lsLoop fuel true (cmds.eraseIdx i.toNat) (i - 1) := by
            simp only [lsLoop, hget, hls, if_true, hidx]
          rw [step]
          exact ih true (cmds.eraseIdx i.toNat) (i - 1) herase_ne herase_last (by omega)
            (by simp [herase_len]; omega)
            (by simp [lsMeasure, herase_len]; omega)
        · have step : lsLoop (fuel + 1) true cmds i = lsLoop fuel false cmds i := by
            simp only [lsLoop, hget, hls, Bool.false_eq_true, if_false]
          rw [step]
          exact ih false cmds i hne hlast (by omega) (by simp; omega)
            (by simp [lsMeasure]; omega)

/-- C10: for every non-empty command list whose final entry is not a
`Line Speed` command, `optimizeLineSpeedCommands` performs only in-range
(Python-valid) list accesses, so the crash branch of the embedding is never
reached and a result is returned; and the precondition is essential: the
all-Line-Speed input `[Line Speed 30]` reaches an out-of-range access
(Python IndexError, the `none` result). -/
theorem C10_optimizeLineSpeedCommands_safety :
    (∀ (cmds : List FCommand), cmds ≠ [] →
        (∀ c, cmds.getLast? = some c → c.isLineSpeed = false) →
        (optimizeLineSpeedCommands cmds).isSome = true)
    ∧ optimizeLineSpeedCommands [FCommand.lineSpeed 30] = none := by
  constructor
  · intro cmds hne hlast
    have hlen : 1 ≤ cmds.length := List.length_pos.mpr hne
    obtain ⟨r, hr⟩ := lsLoop_safe (4 * cmds.length + 4) false cmds ((cmds.length : ℤ) - 1)
      hne hlast (by omega) (by simp only [Bool.false_eq_true, if_false]; omega)
      (by simp [lsMeasure]; omega)
    rw [optimizeLineSpeedCommands, hr]
    rfl
  · rfl

/-- `command[0] == "Output" and command[2] == 1`. -/
def FCommand.isOutputOn : FCommand → Bool
  | .output _ s => s == 1
  | _ => false

/-- `command[0] == "Output" and command[2] == 0`. -/
def FCommand.isOutputOff : FCommand → Bool
  | .output _ s => s == 0
  | _ => false

/-- Python `outputs[idx] = True` on a boolean list: non-negative indices in
`[0, len)` and negative ones in `[-len, 0)` (wrapping to `len + idx`)
succeed, anything else raises IndexError (`none`). -/
def pySetTrue (l : List Bool) (idx : ℤ) : Option (List Bool) :=
  if 0 ≤ idx then
    if idx < (l.length : ℤ) then some (l.set idx.toNat true) else none
  else if 0 ≤ (l.length : ℤ) + idx then
    some (l.set ((l.length : ℤ) + idx).toNat true)
  else none

/-- The loop of `Converter.getOutputsInFisnarCommands`, threading the
`outputs` list. -/
def getOutputsAux : List Bool → List FCommand → Option (List Bool)
  | acc, [] => some acc
  | acc, .output ch _ :: rest =>
    (pySetTrue acc (ch - 1)).bind (fun acc2 => getOutputsAux acc2 rest)
  | acc, _ :: rest => getOutputsAux acc rest

/-- `Converter.getOutputsInFisnarCommands`: marks
`outputs[int(command[1]) - 1] = True` for every `Output` command of the list,
whatever its state. -/
def getOutputsInFisnarCommands (cmds : List FCommand) : Option (List Bool) :=
  getOutputsAux [false, false, false, false] cmds

/-- Index scan `findIdxFrom p l base`: the absolute index (counting from
`base`) of the first element of `l` satisfying `p`. -/
def findIdxFrom (p : FCommand → Bool) : List FCommand → ℕ → Option ℕ
  | [], _ => none
  | c :: rest, base => if p c then some base else findIdxFrom p rest (base + 1)

/-- The `first_on_command_ind` / `last_off_command_ind` scan of
`convertCommands` (the `for i in range(len(fisnar_commands))` loop):
walking the suffix `rest` of the command list starting at absolute index
`i`; at each output-on command the first-on index is recorded once and the
last-off index is overwritten by the next following output-off, when one
exists. -/
def mergeScanGo : List FCommand → ℕ → Option ℕ → Option ℕ → Option ℕ × Option ℕ
  | [], _, first, last => (first, last)
  | c :: rest, i, first, last =>
    if c.isOutputOn then
      mergeScanGo rest (i + 1) (if first.isNone then some i else first)
        (match findIdxFrom FCommand.isOutputOff rest (i + 1) with
         | some j => some j
         | none => last)
    else mergeScanGo rest (i + 1) first last

def mergeScan (cmds : List FCommand) : Option ℕ × Option ℕ :=
  mergeScanGo cmds 0 none none

/-- The deletion loop of the continuity merge (`while i < last_off_command_ind`):
deletes every `Output` command at a shifting index `i`, bumping the end index
back at each deletion.  The fuel dominates `last - i`, which decreases every
iteration, so the `0` case is unreachable from `continuityMerge`; so is the
`none` subscript case, because `continuityMerge` always passes `last` below
the list length (Python would raise IndexError there). -/
def delLoop : ℕ → List FCommand → ℕ → ℕ → List FCommand
  | 0, cmds, _, _ => cmds
  | fuel + 1, cmds, i, last =>
    if i < last then
      match cmds[i]? with
      | some c =>
        if c.isOutput then delLoop fuel (cmds.eraseIdx i) i (last - 1)
        else delLoop fuel cmds (i + 1) last
      | none => cmds
    else cmds

/-- The continuity-merge block of `Converter.convertCommands`
(lines 150-179, the body of `if self.continuous_extrusion:`):
if the number of channels appearing in `Output` commands is exactly one,
scan for the first-on and last-recorded-off indices and delete the `Output`
commands strictly between them; otherwise (`else: pass`) leave the program
unmodified.  `none` models the Python `TypeError` raised when the scan
leaves `first_on_command_ind` or `last_off_command_ind` equal to `None`
(`None + 1` / `i < None`), and the IndexError case of
`getOutputsInFisnarCommands`. -/
def continuityMerge (cmds : List FCommand) : Option (List FCommand) :=
  match getOutputsInFisnarCommands cmds with
  | none => none
  | some flags =>
    if flags.count true = 1 then
      match mergeScan cmds with
      | (some f, some l) => some (delLoop (l - f) cmds (f + 1) l)
      | (some _, none) => none
      | (none, _) => none
    else some cmds

theorem delLoop_spec :
    ∀ (fuel : ℕ) (pre mid post : List FCommand),
      mid.length < fuel →
      delLoop fuel (pre ++ mid ++ post) pre.length (pre.length + mid.length) =
        pre ++ mid.filter (fun c => !c.isOutput) ++ post := by
  intro fuel
  induction fuel with
  | zero => intro pre mid post h; omega
  | succ fuel ih =>
    intro pre mid post h
    cases mid with
    | nil => simp [delLoop]
    | cons m mid2 =>
      have hlt : pre.length < pre.length + (m :: mid2).length := by simp
      have hget : (pre ++ (m :: mid2) ++ post)[pre.length]? = some m := by
        rw [List.append_assoc, List.getElem?_append_right (le_refl pre.length)]
        simp
      rw [delLoop, if_pos hlt, hget]
      dsimp only
      by_cases hm : m.isOutput = true
      · rw [if_pos hm]
        have herase : (pre ++ (m :: mid2) ++ post).eraseIdx pre.length =
            pre ++ mid2 ++ post := by
          rw [List.append_assoc,
            List.eraseIdx_append_of_length_le (le_refl pre.length)]
          simp [List.append_assoc]
        have hlast : pre.length + (m :: mid2).length - 1 = pre.length + mid2.length := by
          simp
        rw [herase, hlast, ih pre mid2 post (by simp at h ⊢; omega)]
        simp [List.filter_cons, hm]
      · rw [if_neg hm]
        have hre : pre ++ (m :: mid2) ++ post = (pre ++ [m]) ++ mid2 ++ post := by
          simp
        have hlen1 : pre.length + 1 = (pre ++ [m]).length := by simp
        have hlen2 : pre.length + (m :: mid2).length = (pre ++ [m]).length + mid2.length := by
          simp; omega
        rw [hre, hlen1, hlen2, ih (pre ++ [m]) mid2 post (by simp at h ⊢; omega)]
        simp [List.filter_cons, hm]

theorem findIdxFrom_spec :
    ∀ (l : List FCommand) (base k : ℕ) (p : FCommand → Bool),
      findIdxFrom p l base = some k →
      base ≤ k ∧ k - base < l.length ∧
        ∃ c, l[k - base]? = some c ∧ p c = true := by
  intro l
  induction l with
  | nil => intro base k p h; cases h
  | cons c rest ih =>
    intro base k p h
    rw [findIdxFrom] at h
    by_cases hp : p c = true
    · rw [if_pos hp] at h
      cases h
      refine ⟨le_refl _, by simp, c, ?_, hp⟩
      simp
    · rw [if_neg hp] at h
      obtain ⟨h1, h2, d, hd, hpd⟩ := ih (base + 1) k p h
      refine ⟨by omega, by simp; omega, d, ?_, hpd⟩
      have : k - base = (k - (base + 1)) + 1 := by omega
      rw [this]
      simpa using hd

theorem mergeScanGo_bounds :
    ∀ (rest : List FCommand) (i : ℕ) (first last : Option ℕ),
      (∀ f0, first = some f0 → f0 < i) →
      (∀ l0, last = some l0 →
        l0 < i + rest.length ∧ ∃ f0, first = some f0 ∧ f0 < l0) →
      ∀ f l, mergeScanGo rest i first last = (some f, some l) →
        f < l ∧ l < i + rest.length := by
  intro rest
  induction rest with
  | nil =>
    intro i first last hA hB f l h
    rw [mergeScanGo] at h
    cases h
    obtain ⟨h1, f0, hf0, h2⟩ := hB l rfl
    simp only [Option.some.injEq] at hf0
    · constructor
      · omega
      · simpa using h1
  | cons c rest2 ih =>
    intro i first last hA hB f l h
    rw [mergeScanGo] at h
    by_cases hc : c.isOutputOn = true
    · rw [if_pos hc] at h
      refine (?_ : f < l ∧ l < (i + 1) + rest2.length → f < l ∧ l < i + (c :: rest2).length) ?_
      · intro hh; refine ⟨hh.1, ?_⟩; simp at hh ⊢; omega
      refine ih (i + 1) _ _ ?_ ?_ f l h
      · intro f0 hf0
        cases hfirst : first with
        | none => rw [hfirst] at hf0; simp at hf0; omega
        | some f1 =>
          rw [hfirst] at hf0
          simp at hf0
          have := hA f1 (by rw [hfirst])
          omega
      · intro l0 hl0
        cases hfind : findIdxFrom FCommand.isOutputOff rest2 (i + 1) with
        | some j =>
          rw [hfind] at hl0
          cases hl0
          obtain ⟨hj1, hj2, _⟩ := findIdxFrom_spec rest2 (i + 1) l0 _ hfind
          constructor
          · omega
          · cases hfirst : first with
            | none => exact ⟨i, by simp, by omega⟩
            | some f1 =>
              refine ⟨f1, by simp, ?_⟩
              have := hA f1 hfirst
              omega
        | none =>
          rw [hfind] at hl0
          obtain ⟨h1, f0, hf0, h2⟩ := hB l0 hl0
          constructor
          · simp at h1 ⊢; omega
          · cases hfirst : first with
            | none => rw [hfirst] at hf0; cases hf0
            | some f1 =>
              rw [hfirst] at hf0
              cases hf0
              exact ⟨f0, by simp [hfirst], h2⟩
    · rw [if_neg hc] at h
      have := ih (i + 1) first last
        (fun f0 hf0 => by have := hA f0 hf0; omega)
        (fun l0 hl0 => by
          obtain ⟨h1, f0, hf0, h2⟩ := hB l0 hl0
          exact ⟨by simp at h1 ⊢; omega, f0, hf0, h2⟩)
        f l h
      refine ⟨this.1, ?_⟩
      have := this.2
      simp at this ⊢
      omega

theorem C10_witness :
    (optimizeLineSpeedCommands [FCommand.endProgram]).isSome = true :=
  C10_optimizeLineSpeedCommands_safety.1 [FCommand.endProgram] (by simp)
    (fun c hc => by
      rw [show ([FCommand.endProgram].getLast? : Option FCommand) =
        some FCommand.endProgram from rfl] at hc
      cases hc
      rfl)

theorem mergeScanGo_first (cmds : List FCommand) :
    ∀ (rest : List FCommand) (i : ℕ) (first last : Option ℕ),
      cmds.drop i = rest →
      (∀ f0, first = some f0 →
        (∃ c, cmds[f0]? = some c ∧ c.isOutputOn = true) ∧
        ∀ j < f0, ∀ c, cmds[j]? = some c → c.isOutputOn = false) →
      (first = none → ∀ j < i, ∀ c, cmds[j]? = some c → c.isOutputOn = false) →
      ∀ f l, mergeScanGo rest i first last = (some f, l) →
        (∃ c, cmds[f]? = some c ∧ c.isOutputOn = true) ∧
        ∀ j < f, ∀ c, cmds[j]? = some c → c.isOutputOn = false := by
  intro rest
  induction rest with
  | nil =>
    intro i first last _ hSome _ f l h
    rw [mergeScanGo] at h
    cases h
    exact hSome f rfl
  | cons c rest2 ih =>
    intro i first last hrest hSome hNone f l h
    have hci : cmds[i]? = some c := by
      have h0 := List.getElem?_drop cmds i 0
      rw [hrest] at h0
      simpa using h0.symm
    have hdrop2 : cmds.drop (i + 1) = rest2 := by
      have h1 : cmds.drop (i + 1) = (cmds.drop i).drop 1 := by
        rw [List.drop_drop]
      rw [h1, hrest, List.drop_one, List.tail_cons]
    rw [mergeScanGo] at h
    by_cases hc : c.isOutputOn = true
    · rw [if_pos hc] at h
      refine ih (i + 1) _ _ hdrop2 ?_ ?_ f l h
      · intro f0 hf0
        cases hfirst : first with
        | none =>
          rw [hfirst] at hf0
          simp only [Option.isNone_none, if_pos, Option.some.injEq] at hf0
          subst hf0
          exact ⟨⟨c, hci, hc⟩, fun j hj => hNone hfirst j hj⟩
        | some f1 =>
          rw [hfirst] at hf0
          simp only [Option.isNone_some, Bool.false_eq_true, if_false,
            Option.some.injEq] at hf0
          subst hf0
          exact hSome _ hfirst
      · intro hn
        exfalso
        cases hfirst : first with
        | none => rw [hfirst] at hn; simp at hn
        | some f1 => rw [hfirst] at hn; simp at hn
    · rw [if_neg hc] at h
      refine ih (i + 1) first last hdrop2 hSome ?_ f l h
      intro hn j hj c2 hc2
      rcases (by omega : j < i ∨ j = i) with hlt | rfl
      · exact hNone hn j hlt c2 hc2
      · rw [hci] at hc2
        cases hc2
        exact Bool.eq_false_iff.mpr hc

/-- Decomposition of a list at two cut points `a ≤ b`. -/
theorem take_take_drop_decomp {α : Type} (xs : List α) (a b : ℕ) (h : a ≤ b) :
    xs.take a ++ (xs.drop a).take (b - a) ++ xs.drop b = xs := by
  rw [List.append_assoc]
  have hinner : (xs.drop a).take (b - a) ++ xs.drop b = xs.drop a := by
    have hdb : xs.drop b = (xs.drop a).drop (b - a) := by
      rw [List.drop_drop]
      congr 1
      omega
    rw [hdb]
    exact List.take_append_drop _ _
  rw [hinner]
  exact List.take_append_drop _ _

theorem continuityMerge_eq (cmds : List FCommand) (flags : List Bool) (f l : ℕ)
    (hflags : getOutputsInFisnarCommands cmds = some flags)
    (hcount : flags.count true = 1)
    (hscan : mergeScan cmds = (some f, some l)) :
    continuityMerge cmds =
      some (cmds.take (f + 1) ++
        ((cmds.drop (f + 1)).take (l - (f + 1))).filter (fun c => !c.isOutput) ++
        cmds.drop l) := by
  have hb := mergeScanGo_bounds cmds 0 none none (by intro f0 h0; cases h0)
    (by intro l0 h0; cases h0) f l hscan
  have hfl : f + 1 ≤ l := by omega
  have hlen : l < cmds.length := by have := hb.2; simpa using this
  simp only [continuityMerge, hflags, hscan, if_pos hcount]
  congr 1
  have hpre_len : (cmds.take (f + 1)).length = f + 1 := by
    rw [List.length_take]
    omega
  have hmid_len : ((cmds.drop (f + 1)).take (l - (f + 1))).length = l - (f + 1) := by
    rw [List.length_take, List.length_drop]
    omega
  have hdecomp := take_take_drop_decomp cmds (f + 1) l hfl
  calc delLoop (l - f) cmds (f + 1) l
      = delLoop (l - f)
          (cmds.take (f + 1) ++ (cmds.drop (f + 1)).take (l - (f + 1)) ++ cmds.drop l)
          (cmds.take (f + 1)).length
          ((cmds.take (f + 1)).length + ((cmds.drop (f + 1)).take (l - (f + 1))).length) := by
        rw [hdecomp, hpre_len, hmid_len]
        congr 1
        omega
    _ = cmds.take (f + 1) ++
          ((cmds.drop (f + 1)).take (l - (f + 1))).filter (fun c => !c.isOutput) ++
          cmds.drop l :=
        delLoop_spec (l - f) _ _ _ (by rw [hmid_len]; omega)

/-- C3 (amended): with continuous extrusion requested, when the number of
channels appearing in `Output` commands (in either state) is exactly one and
the scan records a first on-toggle `f` and a final off-toggle `l`, the
continuity merge deletes exactly the `Output` commands strictly between
indices `f` and `l` and nothing else; `f` is the index of the program's
first output-on command.  When the number of channels appearing in `Output`
commands is not one (in particular when more than one channel is turned on),
the program is returned completely unmodified. -/
theorem C3_continuityMerge_correct (cmds : List FCommand) :
    (∀ flags, getOutputsInFisnarCommands cmds = some flags →
      flags.count true ≠ 1 → continuityMerge cmds = some cmds)
    ∧ (∀ flags f l, getOutputsInFisnarCommands cmds = some flags →
      flags.count true = 1 → mergeScan cmds = (some f, some l) →
      continuityMerge cmds =
        some (cmds.take (f + 1) ++
          ((cmds.drop (f + 1)).take (l - (f + 1))).filter (fun c => !c.isOutput) ++
          cmds.drop l)
      ∧ (∃ c, cmds[f]? = some c ∧ c.isOutputOn = true)
      ∧ (∀ j < f, ∀ c, cmds[j]? = some c → c.isOutputOn = false)) := by
  constructor
  · intro flags hflags hcount
    simp only [continuityMerge, hflags, if_neg hcount]
  · intro flags f l hflags hcount hscan
    refine ⟨continuityMerge_eq cmds flags f l hflags hcount hscan, ?_⟩
    exact mergeScanGo_first cmds cmds 0 none none rfl
      (by intro f0 h0; cases h0) (by intro _ j hj; omega) f (some l) hscan

theorem C3_witness :
    continuityMerge [FCommand.output 1 1, FCommand.lineSpeed 5, FCommand.output 1 0,
        FCommand.output 1 1, FCommand.dummyPoint 1 2 3, FCommand.output 1 0] =
      some [FCommand.output 1 1, FCommand.lineSpeed 5, FCommand.dummyPoint 1 2 3,
        FCommand.output 1 0] := by
  have h := (C3_continuityMerge_correct
    [FCommand.output 1 1, FCommand.lineSpeed 5, FCommand.output 1 0,
      FCommand.output 1 1, FCommand.dummyPoint 1 2 3, FCommand.output 1 0]).2
    [true, false, false, false] 0 5 rfl rfl rfl
  rw [h.1]
  rfl

/-- The channels ever toggled to state 1 — the spec's "turned on" channels
(deduplicated, in order of first appearance). -/
def turnedOnChannels (cmds : List FCommand) : List ℤ :=
  (cmds.filterMap fun c => match c with
    | .output ch s => if s = 1 then some ch else none
    | _ => none).dedup

/-- C3 counterexample: in this program exactly one channel (channel 2) is
ever turned on, the first `Output(2,1)` stands at index 1 and the off-toggle
paired with the last on-toggle at index 6, yet the merge leaves the program
completely unmodified — the `Output` commands at indices 3 and 4, strictly
between them, are not deleted (the code keys on the number of channels
*appearing* in `Output` commands, which here is two, not on the number
turned on). -/
theorem C3_counterexample :
    turnedOnChannels [FCommand.output 1 0, FCommand.output 2 1, FCommand.lineSpeed 5,
        FCommand.output 2 0, FCommand.output 2 1, FCommand.lineSpeed 6,
        FCommand.output 2 0] = [2]
    ∧ continuityMerge [FCommand.output 1 0, FCommand.output 2 1, FCommand.lineSpeed 5,
        FCommand.output 2 0, FCommand.output 2 1, FCommand.lineSpeed 6,
        FCommand.output 2 0] =
      some [FCommand.output 1 0, FCommand.output 2 1, FCommand.lineSpeed 5,
        FCommand.output 2 0, FCommand.output 2 1, FCommand.lineSpeed 6,
        FCommand.output 2 0]
    ∧ ([FCommand.output 1 0, FCommand.output 2 1, FCommand.lineSpeed 5,
        FCommand.output 2 0, FCommand.output 2 1, FCommand.lineSpeed 6,
        FCommand.output 2 0][3]? = some (FCommand.output 2 0)) := by
  refine ⟨rfl, ?_, rfl⟩
  rfl

/-- C8: the continuity merge never changes the sequence of positional
commands (nor any of their coordinates): whenever it returns a program, the
sublist of positional commands is exactly that of the input — the merge
removes only `Output` commands. -/
theorem C8_continuityMerge_positions (cmds r : List FCommand)
    (h : continuityMerge cmds = some r) :
    r.filter FCommand.isXYZ = cmds.filter FCommand.isXYZ := by
  cases hflags : getOutputsInFisnarCommands cmds with
  | none =>
    simp only [continuityMerge, hflags] at h
    cases h
  | some flags =>
    by_cases hcount : flags.count true = 1
    · cases hscan : mergeScan cmds with
      | mk fst snd =>
        cases fst with
        | none =>
          simp only [continuityMerge, hflags, if_pos hcount, hscan] at h
          cases h
        | some f =>
          cases snd with
          | none =>
            simp only [continuityMerge, hflags, if_pos hcount, hscan] at h
            cases h
          | some l =>
            have heq := continuityMerge_eq cmds flags f l hflags hcount hscan
            rw [heq] at h
            cases h
            have hb := mergeScanGo_bounds cmds 0 none none (by intro f0 h0; cases h0)
              (by intro l0 h0; cases h0) f l hscan
            have hfl : f + 1 ≤ l := by omega
            conv_rhs => rw [← take_take_drop_decomp cmds (f + 1) l hfl]
            rw [List.filter_append, List.filter_append, List.filter_append,
              List.filter_append, List.filter_filter]
            congr 2
            refine List.filter_congr ?_
            intro c _
            cases c <;> rfl
    · simp only [continuityMerge, hflags, if_neg hcount, Option.some.injEq] at h
      rw [← h]

theorem C8_witness :
    ([FCommand.output 2 1, FCommand.dummyPoint 0 0 0, FCommand.dummyPoint 1 1 1,
        FCommand.output 2 0] : List FCommand).filter FCommand.isXYZ =
      ([FCommand.output 2 1, FCommand.dummyPoint 0 0 0, FCommand.output 2 0,
        FCommand.output 2 1, FCommand.dummyPoint 1 1 1,
        FCommand.output 2 0] : List FCommand).filter FCommand.isXYZ :=
  C8_continuityMerge_positions
    [FCommand.output 2 1, FCommand.dummyPoint 0 0 0, FCommand.output 2 0,
      FCommand.output 2 1, FCommand.dummyPoint 1 1 1, FCommand.output 2 0]
    [FCommand.output 2 1, FCommand.dummyPoint 0 0 0, FCommand.dummyPoint 1 1 1,
      FCommand.output 2 0]
    rfl

/-- Modelled from the spec: the command-parsing collaborator of §6 — a parsed
gcode line exposing `commandCode` (`get_command()`) and `hasParam`/`getParam`
for single-letter parameters (`gcodeBuddy.marlin.Command` is not among the
repository's staged sources).  `get_param` on an absent parameter raises in
Python; every call site in `Converter.py` guards it with `has_param`, so the
embedding returns 0 there. -/
structure GCommand where
  command : String
  params : List (String × ℚ)
  deriving DecidableEq, Repr

def GCommand.get_command (c : GCommand) : String := c.command

def GCommand.has_param (c : GCommand) (p : String) : Bool := (c.params.lookup p).isSome

def GCommand.get_param (c : GCommand) (p : String) : ℚ := (c.params.lookup p).getD 0

/-- The filter of `getFirstExtrudingCommandIndex` and
`getLastExtrudingCommandIndex`: a `G0`/`G1` command with at least one of
X, Y, Z and a positive E parameter — the claims' "motion command carrying a
nonzero deposit parameter together with at least one spatial parameter". -/
def isDepositingMove (c : GCommand) : Bool :=
  (c.get_command == "G0" || c.get_command == "G1")
    && (c.has_param "X" || c.has_param "Y" || c.has_param "Z")
    && (c.has_param "E" && decide (0 < c.get_param "E"))

/-- The filter of `getFirstPositionalCommandIndex`'s backward scan: a
`G0`/`G1` command specifying all three of X, Y, Z and not itself depositing. -/
def isQualifyingStart (c : GCommand) : Bool :=
  (c.get_command == "G0" || c.get_command == "G1")
    && (c.has_param "X" && c.has_param "Y" && c.has_param "Z")
    && !(c.has_param "E" && decide (0 < c.get_param "E"))

/-- `Converter.getFirstExtrudingCommandIndex`. -/
def getFirstExtrudingCommandIndex : List GCommand → Option ℕ
  | [] => none
  | c :: rest =>
    if isDepositingMove c then some 0
    else (getFirstExtrudingCommandIndex rest).map (· + 1)

/-- A backward scan `for i in range(start, -1, -1)` returning the first hit
walking downward — the largest index `≤ start` whose command satisfies `p`. -/
def scanDownFrom (p : GCommand → Bool) (g : List GCommand) : ℕ → Option ℕ
  | 0 =>
    match g[0]? with
    | some c => if p c then some 0 else none
    | none => none
  | i + 1 =>
    match g[i + 1]? with
    | some c => if p c then some (i + 1) else scanDownFrom p g i
    | none => scanDownFrom p g i

/-- `Converter.getFirstPositionalCommandIndex`. -/
def getFirstPositionalCommandIndex (g : List GCommand) : Option ℕ :=
  match getFirstExtrudingCommandIndex g with
  | none => none
  | some k => scanDownFrom isQualifyingStart g k

/-- `Converter.getLastExtrudingCommandIndex` (`range(len-1, -1, -1)`; empty
list scans nothing). -/
def getLastExtrudingCommandIndex (g : List GCommand) : Option ℕ :=
  scanDownFrom isDepositingMove g (g.length - 1)

/-- `Converter.g0g1WithIO`: a `G0`/`G1` command becomes an `Output` toggle on
the current output (state 1 exactly when E is present and positive) followed
by a `Dummy Point` at the resolved position; axes not given keep their prior
value, and the current position is updated. -/
def g0g1WithIo (c : GCommand) (curr_output : ℤ) (pos : ℚ × ℚ × ℚ) :
    List FCommand × (ℚ × ℚ × ℚ) :=
  let out : FCommand :=
    if c.has_param "E" && decide (0 < c.get_param "E") then .output curr_output 1
    else .output curr_output 0
  let x := if c.has_param "X" then c.get_param "X" else pos.1
  let y := if c.has_param "Y" then c.get_param "Y" else pos.2.1
  let z := if c.has_param "Z" then c.get_param "Z" else pos.2.2
  ([out, .dummyPoint x y z], (x, y, z))

/-- `command.get_command()[0]`, `none` on an empty command code (Python
IndexError). -/
def headChar (c : GCommand) : Option Char := c.get_command.data.head?

/-- `int(command.get_command()[1])`: the second character's digit value;
`none` when there is no second character or it is not a digit (Python
IndexError / ValueError). -/
def tDigit (c : GCommand) : Option ℕ :=
  match c.get_command.data with
  | _ :: d :: _ => if d.isDigit then some (d.toNat - 48) else none
  | _ => none

/-- Lines 101-105 of `convertCommands`: the first command whose code starts
with `T` fixes the starting extruder; none found leaves extruder 0. -/
def firstExtruderScan : List GCommand → Option ℕ
  | [] => some 0
  | c :: rest =>
    match headChar c with
    | none => none
    | some h => if h = 'T' then tDigit c else firstExtruderScan rest

/-- The mutable locals of the conversion loop (`curr_pos`, `curr_speed`,
`curr_extruder`) together with the `fisnar_commands` accumulator. -/
structure WalkState where
  pos : ℚ × ℚ × ℚ
  speed : ℚ
  ext : ℕ
  acc : List FCommand
  deriving Repr

/-- Lines 113-115 of `convertCommands`: a present `F` parameter whose
mm-per-second value differs from the current speed appends a `Line Speed`
row and updates the speed; this runs for every command, in or out of range. -/
def speedStep (st : WalkState) (c : GCommand) : WalkState :=
  if c.has_param "F" && decide (c.get_param "F" / 60 ≠ st.speed) then
    { st with speed := c.get_param "F" / 60,
              acc := st.acc ++ [.lineSpeed (c.get_param "F" / 60)] }
  else st

/-- One iteration of the conversion loop of `convertCommands` (lines
109-129) at index `i`: the speed check runs for every command, the
conversion cases only inside `[first, last]`. -/
def convertStep (first last : ℕ) (i : ℕ) (st : WalkState) (c : GCommand) :
    Option WalkState :=
  if first ≤ i ∧ i ≤ last then
    if c.get_command == "G0" || c.get_command == "G1" then
      some { speedStep st c with
              pos := (g0g1WithIo c (((speedStep st c).ext : ℤ) + 1) (speedStep st c).pos).2,
              acc := (speedStep st c).acc ++
                (g0g1WithIo c (((speedStep st c).ext : ℤ) + 1) (speedStep st c).pos).1 }
    else if c.get_command == "G2" || c.get_command == "G3"
        || c.get_command == "G90" || c.get_command == "G91" then
      some (speedStep st c)
    else
      match headChar c with
      | none => none
      | some h =>
        if h = 'T' then
          match tDigit c with
          | none => none
          | some d => some { speedStep st c with ext := d }
        else some (speedStep st c)
  else some (speedStep st c)

/-- The conversion loop over all commands, from index `i` on. -/
def convertWalk (first last : ℕ) : List GCommand → ℕ → WalkState → Option WalkState
  | [], _, st => some st
  | c :: rest, i, st =>
    match convertStep first last i st c with
    | none => none
    | some st2 => convertWalk first last rest (i + 1) st2

/-- Lines 98-137 of `Converter.convertCommands`: the two initial rows, the
first-extruder scan, the conversion walk, then one trailing `Output(k+1, 0)`
for every flag set by `getOutputsInFisnarCommands` on the emitted program,
then `End Program`. -/
def translateStage (g : List GCommand) (first last : ℕ) : Option (List FCommand) :=
  match firstExtruderScan g with
  | none => none
  | some ext0 =>
    match convertWalk first last g 0 ⟨(0, 0, 0), 30, ext0, [.lineSpeed 30, .placeholder]⟩ with
    | none => none
    | some st =>
      match getOutputsInFisnarCommands st.acc with
      | none => none
      | some flags =>
        some (st.acc ++
          ((List.range 4).filterMap fun k =>
            if flags.getD k false then some (.output ((k : ℤ) + 1) 0) else none) ++
          [.endProgram])

/-- `Converter.invertCoords`: `x ↦ 200 − x`, `y ↦ 200 − y`, `z ↦ zMax − z`
on every positional command. -/
def invertCoords (zMax : ℚ) (cmds : List FCommand) : List FCommand :=
  cmds.map fun c =>
    match c with
    | .dummyPoint x y z => .dummyPoint (200 - x) (200 - y) (zMax - z)
    | .lineStart x y z => .lineStart (200 - x) (200 - y) (zMax - z)
    | .linePassing x y z => .linePassing (200 - x) (200 - y) (zMax - z)
    | .lineEnd x y z => .lineEnd (200 - x) (200 - y) (zMax - z)
    | other => other

/-- `Converter.convertCommands`: `some (.error msg)` is the `return False`
path (with `setInformation(msg)`), `some (.ok prog)` the produced program,
`none` a Python runtime error inside the conversion. -/
def convertCommands (g : List GCommand) (ps : PrintSurface) (contExt : Bool) :
    Option (Except String (List FCommand)) :=
  match getFirstPositionalCommandIndex g, getLastExtrudingCommandIndex g with
  | some first, some last =>
    match translateStage g first last with
    | none => none
    | some cmds0 =>
      match optimizeLineSpeedCommands
          (optimizeFisnarOutputCommands
            ((invertCoords ps.zMax cmds0).set 1 (.dummyPoint ps.xMin ps.yMin ps.zMax))) with
      | none => none
      | some cmds3 =>
        if contExt then (continuityMerge cmds3).map Except.ok
        else some (.ok cmds3)
  | _, _ => some (.error "not enough gcode commands to deduce Fisnar commands")

/-- `Converter.getFisnarCommands` (minus the `gcode_commands_lst is None`
guard, which concerns the host lifecycle): convert, then boundary-check. -/
def getFisnarCommands (g : List GCommand) (ps : PrintSurface) (contExt : Bool) :
    Option (Except String (List FCommand)) :=
  match convertCommands g ps contExt with
  | none => none
  | some (.error m) => some (.error m)
  | some (.ok cmds) =>
    if boundaryCheck ps cmds then some (.ok cmds)
    else some (.error "coordinates fell outside user-specified print surface after conversion; if using build plate adhesion, see the 'preview' tab to ensure all material is within the print surface")

/-- Does channel `ch` appear in any `Output` command of the list? -/
def channelAppears (ch : ℤ) (cmds : List FCommand) : Bool :=
  cmds.any fun c =>
    match c with
    | .output ch2 _ => ch2 == ch
    | _ => false

theorem channelAppears_iff (ch : ℤ) (cmds : List FCommand) :
    channelAppears ch cmds = true ↔ ∃ s, FCommand.output ch s ∈ cmds := by
  rw [channelAppears, List.any_eq_true]
  constructor
  · rintro ⟨c, hc, hp⟩
    cases c with
    | output ch2 s =>
      simp only [beq_iff_eq] at hp
      subst hp
      exact ⟨s, hc⟩
    | lineSpeed s => cases hp
    | dummyPoint x y z => cases hp
    | lineStart x y z => cases hp
    | linePassing x y z => cases hp
    | lineEnd x y z => cases hp
    | endProgram => cases hp
    | zClearance v => cases hp
    | placeholder => cases hp
  · rintro ⟨s, hs⟩
    exact ⟨FCommand.output ch s, hs, by simp⟩

theorem speedStep_acc (st : WalkState) (c : GCommand) :
    ∃ tail, (speedStep st c).acc = st.acc ++ tail ∧
      ∀ x ∈ tail, x.isOutput = false := by
  rw [speedStep]
  split_ifs with h
  · exact ⟨[.lineSpeed (c.get_param "F" / 60)], rfl, by
      intro x hx
      simp only [List.mem_singleton] at hx
      subst hx
      rfl⟩
  · exact ⟨[], by simp, by simp⟩

theorem g0g1WithIo_channels (c : GCommand) (co : ℤ) (pos : ℚ × ℚ × ℚ) :
    ∀ ch s, FCommand.output ch s ∈ (g0g1WithIo c co pos).1 → ch = co := by
  intro ch s hmem
  rw [g0g1WithIo] at hmem
  simp only [List.mem_cons, List.mem_singleton] at hmem
  rcases hmem with h1 | h2 | h3
  · split_ifs at h1 with hE <;> cases h1 <;> rfl
  · cases h2
  · cases h3

theorem convertStep_spec (first last i : ℕ) (st : WalkState) (c : GCommand)
    (st2 : WalkState) (h : convertStep first last i st c = some st2) :
    ∃ tail, st2.acc = st.acc ++ tail ∧
      ∀ ch s, FCommand.output ch s ∈ tail → ∃ e : ℕ, ch = (e : ℤ) + 1 := by
  obtain ⟨stail, hsacc, hstail⟩ := speedStep_acc st c
  have houts : ∀ ch s, FCommand.output ch s ∈ stail → ∃ e : ℕ, ch = (e : ℤ) + 1 := by
    intro ch s hm
    exact absurd (hstail _ hm) (by simp [FCommand.isOutput])
  rw [convertStep] at h
  split_ifs at h with hrange hG hO
  · -- G0/G1
    cases h
    refine ⟨stail ++ (g0g1WithIo c (((speedStep st c).ext : ℤ) + 1) (speedStep st c).pos).1,
      by simp [hsacc], ?_⟩
    intro ch s hm
    rw [List.mem_append] at hm
    rcases hm with hm | hm
    · exact houts ch s hm
    · exact ⟨(speedStep st c).ext, g0g1WithIo_channels _ _ _ ch s hm⟩
  · -- G2/G3/G90/G91
    cases h
    exact ⟨stail, hsacc, houts⟩
  · -- T or other
    cases hhead : headChar c with
    | none => rw [hhead] at h; cases h
    | some hc =>
      rw [hhead] at h
      dsimp only at h
      by_cases hT : hc = 'T'
      · rw [if_pos hT] at h
        cases hdig : tDigit c with
        | none => rw [hdig] at h; cases h
        | some d =>
          rw [hdig] at h
          cases h
          exact ⟨stail, hsacc, houts⟩
      · rw [if_neg hT] at h
        cases h
        exact ⟨stail, hsacc, houts⟩
  · -- out of range
    cases h
    exact ⟨stail, hsacc, houts⟩

theorem convertWalk_channels (first last : ℕ) :
    ∀ (g : List GCommand) (i : ℕ) (st st2 : WalkState),
      convertWalk first last g i st = some st2 →
      (∀ ch s, FCommand.output ch s ∈ st.acc → ∃ e : ℕ, ch = (e : ℤ) + 1) →
      ∀ ch s, FCommand.output ch s ∈ st2.acc → ∃ e : ℕ, ch = (e : ℤ) + 1 := by
  intro g
  induction g with
  | nil =>
    intro i st st2 h hacc
    rw [convertWalk] at h
    cases h
    exact hacc
  | cons c rest ih =>
    intro i st st2 h hacc
    rw [convertWalk] at h
    cases hstep : convertStep first last i st c with
    | none => rw [hstep] at h; cases h
    | some stm =>
      rw [hstep] at h
      refine ih (i + 1) stm st2 h ?_
      obtain ⟨tail, htacc, htail⟩ := convertStep_spec first last i st c stm hstep
      intro ch s hm
      rw [htacc, List.mem_append] at hm
      rcases hm with hm | hm
      · exact hacc ch s hm
      · exact htail ch s hm

theorem getOutputsAux_spec :
    ∀ (cmds : List FCommand) (acc flags : List Bool),
      acc.length = 4 →
      (∀ ch s, FCommand.output ch s ∈ cmds → 1 ≤ ch) →
      getOutputsAux acc cmds = some flags →
      ∀ k, k < 4 →
        flags.getD k false = (acc.getD k false || channelAppears ((k : ℤ) + 1) cmds) := by
  intro cmds
  induction cmds with
  | nil =>
    intro acc flags hlen hch h k hk
    rw [getOutputsAux] at h
    cases h
    simp [channelAppears]
  | cons c rest ih =>
    intro acc flags hlen hch h k hk
    cases c with
    | output ch s =>
      have hch1 : 1 ≤ ch := hch ch s (List.mem_cons_self _ _)
      rw [getOutputsAux] at h
      cases hset : pySetTrue acc (ch - 1) with
      | none => rw [hset] at h; cases h
      | some acc2 =>
        rw [hset] at h
        simp only [Option.some_bind] at h
        have hnn : (0 : ℤ) ≤ ch - 1 := by omega
        rw [pySetTrue, if_pos hnn] at hset
        have hlt : ch - 1 < (acc.length : ℤ) := by
          by_contra hge
          rw [if_neg hge] at hset
          cases hset
        rw [if_pos hlt] at hset
        have hacc2 : acc2 = acc.set (ch - 1).toNat true := by
          cases hset
          rfl
        have hlen2 : acc2.length = 4 := by rw [hacc2, List.length_set, hlen]
        have hrest := ih acc2 flags hlen2
          (fun ch2 s2 hm => hch ch2 s2 (List.mem_cons_of_mem _ hm)) h k hk
        rw [hrest]
        have happ : channelAppears ((k : ℤ) + 1) (FCommand.output ch s :: rest) =
            ((ch == (k : ℤ) + 1) || channelAppears ((k : ℤ) + 1) rest) := by
          rw [channelAppears, List.any_cons]
          rfl
        rw [happ]
        have hgd : acc2.getD k false =
            (if (ch - 1).toNat = k then true else acc.getD k false) := by
          rw [hacc2, List.getD_eq_getElem?_getD, List.getElem?_set]
          split_ifs with he hlt2
          · rfl
          · exact absurd (by omega : (ch - 1).toNat < acc.length) hlt2
          · rw [List.getD_eq_getElem?_getD]
        rw [hgd]
        by_cases he : (ch - 1).toNat = k
        · have : (ch == (k : ℤ) + 1) = true := by
            simp only [beq_iff_eq]
            omega
          rw [if_pos he, this]
          simp
        · have : (ch == (k : ℤ) + 1) = false := by
            simp only [beq_eq_false_iff_ne, ne_eq]
            omega
          rw [if_neg he, this]
          simp [Bool.or_assoc, Bool.or_comm, Bool.or_left_comm]
    | lineSpeed s =>
      rw [show getOutputsAux acc (FCommand.lineSpeed s :: rest) = getOutputsAux acc rest from rfl] at h
      rw [ih acc flags hlen (fun ch2 s2 hm => hch ch2 s2 (List.mem_cons_of_mem _ hm)) h k hk]
      rfl
    | dummyPoint x y z =>
      rw [show getOutputsAux acc (FCommand.dummyPoint x y z :: rest) = getOutputsAux acc rest from rfl] at h
      rw [ih acc flags hlen (fun ch2 s2 hm => hch ch2 s2 (List.mem_cons_of_mem _ hm)) h k hk]
      rfl
    | lineStart x y z =>
      rw [show getOutputsAux acc (FCommand.lineStart x y z :: rest) = getOutputsAux acc rest from rfl] at h
      rw [ih acc flags hlen (fun ch2 s2 hm => hch ch2 s2 (List.mem_cons_of_mem _ hm)) h k hk]
      rfl
    | linePassing x y z =>
      rw [show getOutputsAux acc (FCommand.linePassing x y z :: rest) = getOutputsAux acc rest from rfl] at h
      rw [ih acc flags hlen (fun ch2 s2 hm => hch ch2 s2 (List.mem_cons_of_mem _ hm)) h k hk]
      rfl
    | lineEnd x y z =>
      rw [show getOutputsAux acc (FCommand.lineEnd x y z :: rest) = getOutputsAux acc rest from rfl] at h
      rw [ih acc flags hlen (fun ch2 s2 hm => hch ch2 s2 (List.mem_cons_of_mem _ hm)) h k hk]
      rfl
    | endProgram =>
      rw [show getOutputsAux acc (FCommand.endProgram :: rest) = getOutputsAux acc rest from rfl] at h
      rw [ih acc flags hlen (fun ch2 s2 hm => hch ch2 s2 (List.mem_cons_of_mem _ hm)) h k hk]
      rfl
    | zClearance v =>
      rw [show getOutputsAux acc (FCommand.zClearance v :: rest) = getOutputsAux acc rest from rfl] at h
      rw [ih acc flags hlen (fun ch2 s2 hm => hch ch2 s2 (List.mem_cons_of_mem _ hm)) h k hk]
      rfl
    | placeholder =>
      rw [show getOutputsAux acc (FCommand.placeholder :: rest) = getOutputsAux acc rest from rfl] at h
      rw [ih acc flags hlen (fun ch2 s2 hm => hch ch2 s2 (List.mem_cons_of_mem _ hm)) h k hk]
      rfl

/-- The trailing rows appended by `translateStage` for a given flag vector. -/
def trailingOutputs (flags : List Bool) : List FCommand :=
  (List.range 4).filterMap fun k =>
    if flags.getD k false then some (.output ((k : ℤ) + 1) 0) else none

theorem translateStage_eq_of (g : List GCommand) (first last : ℕ)
    (ext0 : ℕ) (st : WalkState) (flags : List Bool)
    (hext : firstExtruderScan g = some ext0)
    (hwalk : convertWalk first last g 0
      ⟨(0, 0, 0), 30, ext0, [.lineSpeed 30, .placeholder]⟩ = some st)
    (hflags : getOutputsInFisnarCommands st.acc = some flags) :
    translateStage g first last = some (st.acc ++ trailingOutputs flags ++ [.endProgram]) := by
  simp only [translateStage, hext, hwalk, hflags, trailingOutputs]

/-- C4 (amended): after walking the bounded range the Translator appends a
trailing `Output(ch,0)` exactly for each channel `ch` of 1..4 that appears in
any `Output` command of the emitted program — in either state, not only
channels toggled to state 1 — then `EndProgram` as the final entry. -/
theorem C4_translateStage_trailing (g : List GCommand) (first last : ℕ)
    (ext0 : ℕ) (st : WalkState) (flags : List Bool)
    (hext : firstExtruderScan g = some ext0)
    (hwalk : convertWalk first last g 0
      ⟨(0, 0, 0), 30, ext0, [.lineSpeed 30, .placeholder]⟩ = some st)
    (hflags : getOutputsInFisnarCommands st.acc = some flags) :
    translateStage g first last =
      some (st.acc ++ trailingOutputs flags ++ [.endProgram])
    ∧ ∀ ch : ℤ,
      (FCommand.output ch 0 ∈ trailingOutputs flags ↔
        1 ≤ ch ∧ ch ≤ 4 ∧ ∃ s, FCommand.output ch s ∈ st.acc) := by
  have hchans : ∀ ch s, FCommand.output ch s ∈ st.acc → ∃ e : ℕ, ch = (e : ℤ) + 1 := by
    refine convertWalk_channels first last g 0 _ st hwalk ?_
    intro ch s hm
    simp at hm
  have hge1 : ∀ ch s, FCommand.output ch s ∈ st.acc → 1 ≤ ch := by
    intro ch s hm
    obtain ⟨e, he⟩ := hchans ch s hm
    omega
  have hflags2 : getOutputsAux [false, false, false, false] st.acc = some flags := hflags
  have hspec := getOutputsAux_spec st.acc [false, false, false, false] flags rfl hge1 hflags2
  have hinit : ∀ k, ([false, false, false, false] : List Bool).getD k false = false := by
    intro k
    rcases k with _ | _ | _ | _ | k <;> rfl
  refine ⟨translateStage_eq_of g first last ext0 st flags hext hwalk hflags, ?_⟩
  intro ch
  rw [trailingOutputs, List.mem_filterMap]
  constructor
  · rintro ⟨k, hk, hif⟩
    rw [List.mem_range] at hk
    by_cases hfl : flags.getD k false = true
    · rw [if_pos hfl] at hif
      have hch : ch = (k : ℤ) + 1 := by
        cases hif
        rfl
      have := hspec k hk
      rw [hinit k, Bool.false_or] at this
      rw [hfl] at this
      have happ := (channelAppears_iff ((k : ℤ) + 1) st.acc).mp this.symm
      obtain ⟨s, hs⟩ := happ
      exact ⟨by omega, by omega, s, hch ▸ hs⟩
    · rw [if_neg hfl] at hif
      cases hif
  · rintro ⟨h1, h4, s, hs⟩
    refine ⟨(ch - 1).toNat, ?_, ?_⟩
    · rw [List.mem_range]
      omega
    · have hcast : (((ch - 1).toNat : ℤ)) + 1 = ch := by omega
      have happ : channelAppears (((ch - 1).toNat : ℤ) + 1) st.acc = true := by
        rw [hcast]
        exact (channelAppears_iff ch st.acc).mpr ⟨s, hs⟩
      have hfl : flags.getD (ch - 1).toNat false = true := by
        rw [hspec (ch - 1).toNat (by omega), hinit, Bool.false_or, happ]
      rw [if_pos hfl, hcast]

/-- The gcode input of the C4 counterexample: `T2` selects extruder 2 (so
channel 3), a travel move emits `Output(3,0)`, `T1` switches to extruder 1
(channel 2), then one extruding move emits `Output(2,1)`. -/
def gcodeMixedExtruders : List GCommand :=
  [⟨"T2", []⟩, ⟨"G0", [("X", 0), ("Y", 0), ("Z", 0)]⟩, ⟨"T1", []⟩,
   ⟨"G1", [("X", 1), ("E", 1)]⟩]

/-- The body emitted by the conversion walk for `gcodeMixedExtruders`. -/
def mixedBody : List FCommand :=
  [.lineSpeed 30, .placeholder, .output 3 0, .dummyPoint 0 0 0,
   .output 2 1, .dummyPoint 1 0 0]

/-- C4 counterexample: channel 3 is never turned on (no `Output(3,1)`
anywhere in the emitted program), yet the Translator appends a trailing
`Output(3,0)` for it, because the code marks every channel that appears in
any `Output` command, not only channels observed turned on. -/
theorem C4_counterexample :
    getFirstPositionalCommandIndex gcodeMixedExtruders = some 1
    ∧ getLastExtrudingCommandIndex gcodeMixedExtruders = some 3
    ∧ translateStage gcodeMixedExtruders 1 3 =
        some (mixedBody ++ [.output 2 0, .output 3 0, .endProgram])
    ∧ FCommand.output 3 1 ∉
        mixedBody ++ [FCommand.output 2 0, FCommand.output 3 0, FCommand.endProgram] := by
  refine ⟨rfl, rfl, rfl, ?_⟩
  decide

theorem C4_witness :
    FCommand.output 3 0 ∈ trailingOutputs [false, true, true, false] ↔
      1 ≤ (3 : ℤ) ∧ (3 : ℤ) ≤ 4 ∧ ∃ s, FCommand.output 3 s ∈ mixedBody :=
  (C4_translateStage_trailing gcodeMixedExtruders 1 3 2
    ⟨(1, 0, 0), 30, 1, mixedBody⟩ [false, true, true, false] rfl rfl rfl).2 3

/-- C6: `boundaryCheck` returns `True` for a program iff every positional
command lies inclusively within the configured bounds (a position exactly at
a bound passes, one unit outside fails the check); and the whole conversion
(`getFisnarCommands`) only ever returns programs passing the check — it
clamps nothing and drops nothing, failing instead. -/
theorem C6_boundaryCheck_correct :
    (∀ (ps : PrintSurface) (cmds : List FCommand),
      boundaryCheck ps cmds = true ↔ ∀ c ∈ cmds, inBounds ps c)
    ∧ (∀ (g : List GCommand) (ps : PrintSurface) (contExt : Bool)
        (prog : List FCommand),
      getFisnarCommands g ps contExt = some (.ok prog) →
        boundaryCheck ps prog = true) := by
  constructor
  · exact boundaryCheck_iff
  · intro g ps contExt prog h
    rw [getFisnarCommands] at h
    cases hcv : convertCommands g ps contExt with
    | none => rw [hcv] at h; cases h
    | some r =>
      rw [hcv] at h
      cases r with
      | error m => simp at h
      | ok cmds =>
        dsimp only at h
        by_cases hbc : boundaryCheck ps cmds = true
        · rw [if_pos hbc] at h
          cases h
          exact hbc
        · rw [if_neg hbc] at h
          simp at h

deriving instance DecidableEq for Except

def gcodeSimple : List GCommand :=
  [⟨"G0", [("X", 0), ("Y", 0), ("Z", 0)]⟩, ⟨"G1", [("X", 1), ("E", 1)]⟩]

def progSimple : List FCommand :=
  [.lineSpeed 30, .dummyPoint 0 0 100, .output 1 0, .dummyPoint 200 200 100,
   .output 1 1, .dummyPoint 199 200 100, .output 1 0, .endProgram]

unseal Rat.sub Rat.add Rat.mul Rat.inv in
theorem C6_witness :
    boundaryCheck ⟨0, 200, 0, 200, 100⟩ progSimple = true :=
  C6_boundaryCheck_correct.2 gcodeSimple ⟨0, 200, 0, 200, 100⟩ false progSimple (by decide)

theorem getFirstExtrudingCommandIndex_none_iff (g : List GCommand) :
    getFirstExtrudingCommandIndex g = none ↔
      ∀ c ∈ g, isDepositingMove c = false := by
  induction g with
  | nil => simp [getFirstExtrudingCommandIndex]
  | cons c rest ih =>
    constructor
    · intro h
      rw [getFirstExtrudingCommandIndex] at h
      split_ifs at h with hc
      intro d hd
      rcases List.mem_cons.mp hd with rfl | hd2
      · exact Bool.eq_false_iff.mpr hc
      · have hnone : getFirstExtrudingCommandIndex rest = none := by
          cases hr : getFirstExtrudingCommandIndex rest with
          | none => rfl
          | some k => rw [hr] at h; simp at h
        exact ih.mp hnone d hd2
    · intro h
      rw [getFirstExtrudingCommandIndex,
        if_neg (by rw [h c (List.mem_cons_self _ _)]; exact Bool.false_ne_true),
        ih.mpr (fun d hd => h d (List.mem_cons_of_mem _ hd))]
      rfl

theorem getFirstExtrudingCommandIndex_some (g : List GCommand) :
    ∀ k, getFirstExtrudingCommandIndex g = some k →
      ∃ c, g[k]? = some c ∧ isDepositingMove c = true := by
  induction g with
  | nil => intro k h; cases h
  | cons c rest ih =>
    intro k h
    rw [getFirstExtrudingCommandIndex] at h
    split_ifs at h with hc
    · cases h
      exact ⟨c, by simp, hc⟩
    · cases hr : getFirstExtrudingCommandIndex rest with
      | none => rw [hr] at h; cases h
      | some k2 =>
        rw [hr] at h
        simp only [Option.map_some'] at h
        cases h
        obtain ⟨d, hd, hdep⟩ := ih k2 hr
        exact ⟨d, by simpa using hd, hdep⟩

theorem scanDownFrom_none (p : GCommand → Bool) (g : List GCommand) :
    ∀ i, scanDownFrom p g i = none →
      ∀ j, j ≤ i → ∀ c, g[j]? = some c → p c = false := by
  intro i
  induction i with
  | zero =>
    intro h j hj c hc
    have hj0 : j = 0 := by omega
    subst hj0
    rw [scanDownFrom, hc] at h
    dsimp only at h
    split_ifs at h with hp
    exact Bool.eq_false_iff.mpr hp
  | succ i ih =>
    intro h j hj c hc
    rw [scanDownFrom] at h
    cases hgi : g[i + 1]? with
    | some d =>
      rw [hgi] at h
      dsimp only at h
      split_ifs at h with hp
      rcases (by omega : j ≤ i ∨ j = i + 1) with hji | rfl
      · exact ih h j hji c hc
      · rw [hgi] at hc
        cases hc
        exact Bool.eq_false_iff.mpr hp
    | none =>
      rw [hgi] at h
      dsimp only at h
      rcases (by omega : j ≤ i ∨ j = i + 1) with hji | rfl
      · exact ih h j hji c hc
      · rw [hgi] at hc
        cases hc

theorem scanDownFrom_eq_none (p : GCommand → Bool) (g : List GCommand) :
    ∀ i, (∀ j, j ≤ i → ∀ c, g[j]? = some c → p c = false) →
      scanDownFrom p g i = none := by
  intro i
  induction i with
  | zero =>
    intro h
    rw [scanDownFrom]
    cases hg0 : g[0]? with
    | none => rfl
    | some c =>
      dsimp only
      rw [if_neg (by rw [h 0 (le_refl 0) c hg0]; exact Bool.false_ne_true)]
  | succ i ih =>
    intro h
    rw [scanDownFrom]
    cases hgi : g[i + 1]? with
    | none => exact ih (fun j hj c hc => h j (by omega) c hc)
    | some c =>
      dsimp only
      rw [if_neg (by rw [h (i + 1) (le_refl _) c hgi]; exact Bool.false_ne_true)]
      exact ih (fun j hj c2 hc2 => h j (by omega) c2 hc2)

theorem scanDownFrom_some (p : GCommand → Bool) (g : List GCommand) :
    ∀ i k, scanDownFrom p g i = some k →
      k ≤ i ∧ ∃ c, g[k]? = some c ∧ p c = true := by
  intro i
  induction i with
  | zero =>
    intro k h
    rw [scanDownFrom] at h
    cases hg0 : g[0]? with
    | none => rw [hg0] at h; cases h
    | some c =>
      rw [hg0] at h
      dsimp only at h
      split_ifs at h with hp
      cases h
      exact ⟨le_refl 0, c, hg0, hp⟩
  | succ i ih =>
    intro k h
    rw [scanDownFrom] at h
    cases hgi : g[i + 1]? with
    | none =>
      rw [hgi] at h
      obtain ⟨hk, hc⟩ := ih k h
      exact ⟨by omega, hc⟩
    | some c =>
      rw [hgi] at h
      dsimp only at h
      split_ifs at h with hp
      · cases h
        exact ⟨le_refl _, c, hgi, hp⟩
      · obtain ⟨hk, hc⟩ := ih k h
        exact ⟨by omega, hc⟩

theorem getLastExtrudingCommandIndex_none_iff (g : List GCommand) :
    getLastExtrudingCommandIndex g = none ↔
      ∀ c ∈ g, isDepositingMove c = false := by
  rw [getLastExtrudingCommandIndex]
  constructor
  · intro h c hc
    obtain ⟨j, hj⟩ := List.mem_iff_getElem?.mp hc
    have hjlen : j < g.length := by
      by_contra hge
      rw [List.getElem?_eq_none (by omega)] at hj
      cases hj
    exact scanDownFrom_none isDepositingMove g (g.length - 1) h j (by omega) c hj
  · intro h
    exact scanDownFrom_eq_none isDepositingMove g (g.length - 1)
      (fun j hj c hc => h c (List.mem_iff_getElem?.mpr ⟨j, hc⟩))

theorem isQualifyingStart_eq_false_of_dep (c : GCommand)
    (h : isDepositingMove c = true) : isQualifyingStart c = false := by
  rw [isDepositingMove] at h
  rw [isQualifyingStart]
  cases hE : (c.has_param "E" && decide (0 < c.get_param "E")) with
  | false => rw [hE] at h; simp at h
  | true => simp

theorem convertCommands_no_error (g : List GCommand) (ps : PrintSurface)
    (contExt : Bool) (first last : ℕ)
    (hfp : getFirstPositionalCommandIndex g = some first)
    (hle : getLastExtrudingCommandIndex g = some last) :
    ∀ msg, convertCommands g ps contExt ≠ some (.error msg) := by
  intro msg h
  simp only [convertCommands, hfp, hle] at h
  cases hts : translateStage g first last with
  | none => rw [hts] at h; cases h
  | some cmds0 =>
    rw [hts] at h
    dsimp only at h
    cases hls : optimizeLineSpeedCommands
        (optimizeFisnarOutputCommands
          ((invertCoords ps.zMax cmds0).set 1 (.dummyPoint ps.xMin ps.yMin ps.zMax))) with
    | none => rw [hls] at h; cases h
    | some cmds3 =>
      rw [hls] at h
      dsimp only at h
      cases contExt with
      | false =>
        rw [if_neg (by simp)] at h
        simp at h
      | true =>
        rw [if_pos rfl] at h
        cases hcm : continuityMerge cmds3 with
        | none => rw [hcm] at h; cases h
        | some r =>
          rw [hcm] at h
          simp at h

/-- C5: `convertCommands` fails — returns the failure value with the error
description set, and no program — exactly when either no motion command
carries a positive deposit parameter together with a spatial parameter, or
no motion command specifying all three spatial parameters without depositing
precedes the first depositing command.  (A crash inside the later pipeline
is modelled as `none` and is not the failure value.) -/
theorem C5_convertCommands_failure_iff (g : List GCommand) (ps : PrintSurface)
    (contExt : Bool) :
    (∃ msg, convertCommands g ps contExt = some (.error msg)) ↔
      ((∀ c ∈ g, isDepositingMove c = false) ∨
        (∃ k, getFirstExtrudingCommandIndex g = some k ∧
          ∀ j, j < k → ∀ c, g[j]? = some c → isQualifyingStart c = false)) := by
  cases hfp : getFirstPositionalCommandIndex g with
  | some first =>
    cases hle : getLastExtrudingCommandIndex g with
    | some last =>
      constructor
      · rintro ⟨msg, h⟩
        exact absurd h (convertCommands_no_error g ps contExt first last hfp hle msg)
      · intro h
        exfalso
        rcases h with h | ⟨k, hk, hq⟩
        · have hnone := (getLastExtrudingCommandIndex_none_iff g).mpr h
          rw [hnone] at hle
          cases hle
        · rw [getFirstPositionalCommandIndex, hk] at hfp
          obtain ⟨hfk, c, hc, hqual⟩ := scanDownFrom_some isQualifyingStart g k first hfp
          rcases (by omega : first < k ∨ first = k) with hlt | rfl
          · rw [hq first hlt c hc] at hqual
            cases hqual
          · obtain ⟨d, hd, hdep⟩ := getFirstExtrudingCommandIndex_some g first hk
            rw [hd] at hc
            cases hc
            rw [isQualifyingStart_eq_false_of_dep c hdep] at hqual
            cases hqual
    | none =>
      constructor
      · intro _
        exact Or.inl ((getLastExtrudingCommandIndex_none_iff g).mp hle)
      · intro _
        exact ⟨"not enough gcode commands to deduce Fisnar commands", by
          simp only [convertCommands, hfp, hle]⟩
  | none =>
    have hmsg : convertCommands g ps contExt =
        some (.error "not enough gcode commands to deduce Fisnar commands") := by
      simp only [convertCommands, hfp]
    constructor
    · intro _
      cases hfe : getFirstExtrudingCommandIndex g with
      | none => exact Or.inl ((getFirstExtrudingCommandIndex_none_iff g).mp hfe)
      | some k =>
        refine Or.inr ⟨k, rfl, ?_⟩
        rw [getFirstPositionalCommandIndex, hfe] at hfp
        intro j hj c hc
        exact scanDownFrom_none isQualifyingStart g k hfp j (by omega) c hc
    · intro _
      exact ⟨"not enough gcode commands to deduce Fisnar commands", hmsg⟩

/-- Modelled from the spec (§4.6): the binary protocol frames `OU(channel,
state)`, `SP(speed)`, `VA(x,y,z)` and `ID()` (`FisnarCommands.py` is not
among the repository's staged sources; the claims concern the order and
arguments of the frames, not their byte layout). -/
inductive Frame where
  | OU (channel state : ℤ)
  | SP (speed : ℚ)
  | VA (x y z : ℚ)
  | ID
  deriving DecidableEq, Repr

/-- `command[1]` as a Python value — the `line_speed = fisnar_commands[i][1]`
read of `fisnarCommandsToBytes`; `none` for one-element rows (IndexError). -/
def FCommand.field1 : FCommand → Option ℚ
  | .lineSpeed s => some s
  | .dummyPoint x _ _ => some x
  | .lineStart x _ _ => some x
  | .linePassing x _ _ => some x
  | .lineEnd x _ _ => some x
  | .output ch _ => some (ch : ℚ)
  | .zClearance v => some (v : ℚ)
  | .endProgram => none
  | .placeholder => none

/-- The inner dummy-point loop of the non-continuous branch of
`fisnarCommandsToBytes` (lines 451-461): one `VA` per leading `Dummy Point`
(no `ID` after each), with the forced synchronization cycle
`OU(ch,1), ID, OU(ch,0)` inserted whenever `consecutive_dummies` reaches 99;
returns the emitted frames and the unconsumed suffix. -/
def encodeDummies (ch : ℤ) : ℕ → List FCommand → List Frame × List FCommand
  | cd, .dummyPoint x y z :: rest =>
    let pre : List Frame := if 99 ≤ cd then [.OU ch 1, .ID, .OU ch 0] else []
    let cd2 : ℕ := if 99 ≤ cd then 0 else cd
    let r := encodeDummies ch (cd2 + 1) rest
    (pre ++ .VA x y z :: r.1, r.2)
  | _, other => ([], other)

/-- The non-continuous while loop of `fisnarCommandsToBytes` (lines
447-481).  `fuel` bounds the outer iterations (each consumes at least one
command, so any fuel above the list length suffices — see
`fisnarCommandsToBytes`).  `none` models fuel exhaustion and the Python
IndexError of `fisnar_commands[i][1]` when a deposit bracket's dummy run is
followed by nothing or by a one-element row. -/
def encodeNC : ℕ → List FCommand → Option (List Frame)
  | 0, _ => none
  | _ + 1, [] => some []
  | fuel + 1, c :: rest =>
    match c with
    | .output ch st =>
      if st = 1 then
        match encodeDummies ch 0 rest with
        | (vas, rest2) =>
          match rest2 with
          | [] => none
          | c2 :: rest3 =>
            match c2.field1 with
            | none => none
            | some sp =>
              (encodeNC fuel (rest3.drop 1)).map fun tail =>
                vas ++ [.OU ch 1, .ID, .OU ch 0, .SP sp] ++ tail
      else
        encodeNC fuel rest
    | .dummyPoint x y z => (encodeNC fuel rest).map fun tail => .VA x y z :: .ID :: tail
    | .lineSpeed s => (encodeNC fuel rest).map fun tail => .SP s :: tail
    | _ => encodeNC fuel rest

/-- The continuous branch of `fisnarCommandsToBytes` (lines 436-445):
direct one-to-one framing with an `ID` after every `VA`. -/
def encodeCont : List FCommand → List Frame
  | [] => []
  | .output ch st :: rest => .OU ch st :: encodeCont rest
  | .lineSpeed s :: rest => .SP s :: encodeCont rest
  | .dummyPoint x y z :: rest => .VA x y z :: .ID :: encodeCont rest
  | _ :: rest => encodeCont rest

/-- `Converter.fisnarCommandsToBytes`. -/
def fisnarCommandsToBytes (cmds : List FCommand) (continuous_extrusion : Bool) :
    Option (List Frame) :=
  if continuous_extrusion then some (encodeCont cmds)
  else encodeNC (cmds.length + 1) cmds

/-- A grammar of well-formed non-continuous encoder inputs: plain points and
speed rows outside brackets, and deposit brackets of the shape
`Output(ch,1); DummyPoints; LineSpeed sp; Output(ch,0)` — the shape the
encoder's bracket branch assumes (it reads the bracket's trailing
`LineSpeed` through `fisnar_commands[i][1]` and skips two rows). -/
inductive Seg where
  | point (x y z : ℚ)
  | speed (s : ℚ)
  | bracket (ch : ℤ) (pts : List (ℚ × ℚ × ℚ)) (sp : ℚ)

def Seg.flatten : Seg → List FCommand
  | .point x y z => [.dummyPoint x y z]
  | .speed s => [.lineSpeed s]
  | .bracket ch pts sp =>
    .output ch 1 :: ((pts.map fun p => FCommand.dummyPoint p.1 p.2.1 p.2.2) ++
      [.lineSpeed sp, .output ch 0])

def flattenSegs (segs : List Seg) : List FCommand := segs.flatMap Seg.flatten

/-- The frames emitted for a bracket's queued points: a `VA` per point with
a forced `OU(ch,1), ID, OU(ch,0)` cycle each time the counter reaches 99. -/
def vaSync (ch : ℤ) : ℕ → List (ℚ × ℚ × ℚ) → List Frame
  | _, [] => []
  | cd, p :: ps =>
    if 99 ≤ cd then
      .OU ch 1 :: .ID :: .OU ch 0 :: .VA p.1 p.2.1 p.2.2 :: vaSync ch 1 ps
    else .VA p.1 p.2.1 p.2.2 :: vaSync ch (cd + 1) ps

/-- What the encoder emits per segment. -/
def encSeg : Seg → List Frame
  | .point x y z => [.VA x y z, .ID]
  | .speed s => [.SP s]
  | .bracket ch pts sp => vaSync ch 0 pts ++ [.OU ch 1, .ID, .OU ch 0, .SP sp]

theorem encodeDummies_eq (ch : ℤ) :
    ∀ (pts : List (ℚ × ℚ × ℚ)) (cd : ℕ) (rest : List FCommand),
      (∀ c, rest.head? = some c → c.isDummyPoint = false) →
      encodeDummies ch cd
          ((pts.map fun p => FCommand.dummyPoint p.1 p.2.1 p.2.2) ++ rest) =
        (vaSync ch cd pts, rest) := by
  intro pts
  induction pts with
  | nil =>
    intro cd rest hrest
    rw [vaSync]
    cases rest with
    | nil => rfl
    | cons c r =>
      have hc := hrest c rfl
      cases c with
      | dummyPoint x y z => cases hc
      | lineSpeed s => rfl
      | lineStart x y z => rfl
      | linePassing x y z => rfl
      | lineEnd x y z => rfl
      | output a b => rfl
      | endProgram => rfl
      | zClearance v => rfl
      | placeholder => rfl
  | cons p ps ih =>
    intro cd rest hrest
    rw [List.map_cons, List.cons_append, encodeDummies, ih (_ + 1) rest hrest, vaSync]
    by_cases hcd : 99 ≤ cd <;> simp [hcd]

theorem encodeNC_flatten :
    ∀ (segs : List Seg) (fuel : ℕ), (flattenSegs segs).length < fuel →
      encodeNC fuel (flattenSegs segs) = some (segs.flatMap encSeg) := by
  intro segs
  induction segs with
  | nil =>
    intro fuel hf
    cases fuel with
    | zero => omega
    | succ f => rfl
  | cons seg rest ih =>
    intro fuel hf
    have hlen : 1 ≤ (Seg.flatten seg).length := by
      cases seg <;> simp [Seg.flatten]
    have hflat : flattenSegs (seg :: rest) = Seg.flatten seg ++ flattenSegs rest := by
      simp [flattenSegs]
    cases fuel with
    | zero => omega
    | succ f =>
      have hfr : (flattenSegs rest).length < f := by
        rw [hflat, List.length_append] at hf
        omega
      cases seg with
      | point x y z =>
        rw [hflat]
        simp only [Seg.flatten, List.cons_append, List.nil_append]
        rw [encodeNC, ih f hfr]
        simp [encSeg]
      | speed s =>
        rw [hflat]
        simp only [Seg.flatten, List.cons_append, List.nil_append]
        rw [encodeNC, ih f hfr]
        simp [encSeg]
      | bracket ch pts sp =>
        rw [hflat]
        simp only [Seg.flatten, List.cons_append, List.append_assoc]
        rw [encodeNC]
        dsimp only
        rw [if_pos rfl]
        have hdum := encodeDummies_eq ch pts 0
          (FCommand.lineSpeed sp :: FCommand.output ch 0 :: flattenSegs rest)
          (by intro c hc; cases hc; rfl)
        simp only [List.nil_append]
        rw [hdum]
        dsimp only [FCommand.field1]
        rw [List.drop_one, List.tail_cons, ih f hfr]
        simp [encSeg]

theorem vaSync_small (ch : ℤ) :
    ∀ (pts : List (ℚ × ℚ × ℚ)) (cd : ℕ), cd + pts.length ≤ 99 →
      vaSync ch cd pts = pts.map fun p => Frame.VA p.1 p.2.1 p.2.2 := by
  intro pts
  induction pts with
  | nil => intro cd _; rfl
  | cons p ps ih =>
    intro cd h
    rw [List.length_cons] at h
    rw [vaSync, if_neg (by omega), List.map_cons, ih (cd + 1) (by omega)]

theorem vaSync_split (ch : ℤ) :
    ∀ (pts : List (ℚ × ℚ × ℚ)) (cd : ℕ), cd ≤ 99 → 99 - cd < pts.length →
      vaSync ch cd pts =
        ((pts.take (99 - cd)).map fun p => Frame.VA p.1 p.2.1 p.2.2) ++
          [Frame.OU ch 1, Frame.ID, Frame.OU ch 0] ++
          vaSync ch 0 (pts.drop (99 - cd)) := by
  intro pts
  induction pts with
  | nil =>
    intro cd h1 h2
    simp at h2
  | cons p ps ih =>
    intro cd h1 h2
    by_cases hcd : 99 ≤ cd
    · have hc99 : cd = 99 := by omega
      subst hc99
      simp [vaSync]
    · rw [vaSync, if_neg hcd]
      rw [List.length_cons] at h2
      have h99 : 99 - cd = (99 - (cd + 1)) + 1 := by omega
      rw [h99, List.take_succ_cons, List.drop_succ_cons, List.map_cons,
        List.cons_append, ih (cd + 1) (by omega) (by omega)]
      simp [List.append_assoc]

/-- C1 counterexample: for the single deposit bracket `Output(1,1); two
points; LineSpeed 20; Output(1,0)`, the non-continuous encoder emits
`VA, VA, OU(1,1), ID, OU(1,0), SP(20)` — the bracket's points are queued as
bare `VA` frames with no `ID` after each, and the single `OU(1,1), ID` pair
comes after the queued points, not before — which differs from the claimed
sequence `OU(1,1), VA, ID, VA, ID, OU(1,0), SP(20)`. -/
theorem C1_counterexample :
    fisnarCommandsToBytes
        [FCommand.output 1 1, FCommand.dummyPoint 0 0 0, FCommand.dummyPoint 1 1 1,
          FCommand.lineSpeed 20, FCommand.output 1 0] false =
      some [Frame.VA 0 0 0, Frame.VA 1 1 1, Frame.OU 1 1, Frame.ID, Frame.OU 1 0,
        Frame.SP 20]
    ∧ ([Frame.VA 0 0 0, Frame.VA 1 1 1, Frame.OU 1 1, Frame.ID, Frame.OU 1 0,
        Frame.SP 20] : List Frame) ≠
      [Frame.OU 1 1, Frame.VA 0 0 0, Frame.ID, Frame.VA 1 1 1, Frame.ID,
        Frame.OU 1 0, Frame.SP 20] := by
  refine ⟨rfl, ?_⟩
  decide

/-- The bracket framing the encoder actually produces when no forced
synchronization cycle triggers. -/
def encSegNoCycle : Seg → List Frame
  | .point x y z => [.VA x y z, .ID]
  | .speed s => [.SP s]
  | .bracket ch pts sp =>
    (pts.map fun p => Frame.VA p.1 p.2.1 p.2.2) ++
      [.OU ch 1, .ID, .OU ch 0, .SP sp]

theorem flatMap_encSeg_small (segs : List Seg)
    (hsmall : ∀ ch pts sp, Seg.bracket ch pts sp ∈ segs → pts.length ≤ 99) :
    segs.flatMap encSeg = segs.flatMap encSegNoCycle := by
  induction segs with
  | nil => rfl
  | cons seg rest ih =>
    rw [List.flatMap_cons, List.flatMap_cons,
      ih (fun ch pts sp hm => hsmall ch pts sp (List.mem_cons_of_mem _ hm))]
    congr 1
    cases seg with
    | point x y z => rfl
    | speed s => rfl
    | bracket ch pts sp =>
      rw [encSeg, encSegNoCycle,
        vaSync_small ch pts 0 (by
          have := hsmall ch pts sp (List.mem_cons_self _ _)
          omega)]

/-- C1 (amended): in non-continuous encoding, for every Program that is a
sequence of plain `DummyPoint`/`LineSpeed` rows and deposit brackets of the
shape `Output(ch,1); DummyPoints; LineSpeed; Output(ch,0)` with at most 99
points per bracket, the encoder emits for each bracket one `VA` per
contained point (with no interleaved `ID`), then `OU(ch,1), ID, OU(ch,0)`
and the `SP` of the bracket's trailing `LineSpeed`; a plain point outside
any bracket is emitted as `VA` followed immediately by `ID`, and a plain
speed row as `SP`. -/
theorem C1_bracket_framing (segs : List Seg)
    (hsmall : ∀ ch pts sp, Seg.bracket ch pts sp ∈ segs → pts.length ≤ 99) :
    fisnarCommandsToBytes (flattenSegs segs) false =
      some (segs.flatMap encSegNoCycle) := by
  rw [fisnarCommandsToBytes, if_neg (by simp),
    encodeNC_flatten segs _ (by omega), flatMap_encSeg_small segs hsmall]

theorem C1_witness :
    fisnarCommandsToBytes
        (flattenSegs [Seg.point 5 5 5, Seg.speed 7,
          Seg.bracket 1 [((0 : ℚ), (0 : ℚ), (0 : ℚ)), (1, 1, 1)] 20]) false =
      some [Frame.VA 5 5 5, Frame.ID, Frame.SP 7, Frame.VA 0 0 0, Frame.VA 1 1 1,
        Frame.OU 1 1, Frame.ID, Frame.OU 1 0, Frame.SP 20] := by
  have hsmall : ∀ ch pts sp, Seg.bracket ch pts sp ∈
      [Seg.point 5 5 5, Seg.speed 7,
        Seg.bracket 1 [((0 : ℚ), (0 : ℚ), (0 : ℚ)), (1, 1, 1)] 20] →
      pts.length ≤ 99 := by
    intro ch pts sp hmem
    simp only [List.mem_cons, List.not_mem_nil, or_false] at hmem
    rcases hmem with h | h | h
    · cases h
    · cases h
    · cases h
      decide
  rw [C1_bracket_framing _ hsmall]
  rfl

/-- C2: in non-continuous encoding a deposit bracket holding a run of 150
consecutive points (no intervening toggles) produces exactly one forced
`OU(ch,1), ID, OU(ch,0)` synchronization cycle, placed after the 99th
queued point; a run of at most 99 points produces no forced cycle. -/
theorem C2_sync_cycle (ch : ℤ) (sp : ℚ) (pts : List (ℚ × ℚ × ℚ)) :
    (pts.length = 150 →
      fisnarCommandsToBytes (flattenSegs [Seg.bracket ch pts sp]) false =
        some (((pts.take 99).map fun p => Frame.VA p.1 p.2.1 p.2.2) ++
          [Frame.OU ch 1, Frame.ID, Frame.OU ch 0] ++
          ((pts.drop 99).map fun p => Frame.VA p.1 p.2.1 p.2.2) ++
          [Frame.OU ch 1, Frame.ID, Frame.OU ch 0, Frame.SP sp]))
    ∧ (pts.length ≤ 99 →
      fisnarCommandsToBytes (flattenSegs [Seg.bracket ch pts sp]) false =
        some ((pts.map fun p => Frame.VA p.1 p.2.1 p.2.2) ++
          [Frame.OU ch 1, Frame.ID, Frame.OU ch 0, Frame.SP sp])) := by
  have hbase : fisnarCommandsToBytes (flattenSegs [Seg.bracket ch pts sp]) false =
      some (vaSync ch 0 pts ++ [Frame.OU ch 1, Frame.ID, Frame.OU ch 0, Frame.SP sp]) := by
    rw [fisnarCommandsToBytes, if_neg (by simp),
      encodeNC_flatten [Seg.bracket ch pts sp] _ (by omega)]
    simp [encSeg]
  constructor
  · intro h150
    rw [hbase, vaSync_split ch pts 0 (by omega) (by omega),
      vaSync_small ch (pts.drop 99) 0 (by rw [List.length_drop]; omega)]
  · intro h99
    rw [hbase, vaSync_small ch pts 0 (by omega)]

theorem C2_witness :
    fisnarCommandsToBytes
        (flattenSegs [Seg.bracket 1 (List.replicate 150 ((0 : ℚ), (0 : ℚ), (0 : ℚ))) 30])
        false =
      some ((((List.replicate 150 ((0 : ℚ), (0 : ℚ), (0 : ℚ))).take 99).map fun p =>
          Frame.VA p.1 p.2.1 p.2.2) ++
        [Frame.OU 1 1, Frame.ID, Frame.OU 1 0] ++
        (((List.replicate 150 ((0 : ℚ), (0 : ℚ), (0 : ℚ))).drop 99).map fun p =>
          Frame.VA p.1 p.2.1 p.2.2) ++
        [Frame.OU 1 1, Frame.ID, Frame.OU 1 0, Frame.SP 30]) :=
  (C2_sync_cycle 1 30 (List.replicate 150 ((0 : ℚ), (0 : ℚ), (0 : ℚ)))).1 (by simp)

/-- A CSV cell: one Python `str` that is either literal text (a command
name, or the empty string) or the decimal rendering `str(x)` of a number.
Numbers are tagged rather than rendered because the embedding models floats
as exact rationals: Python guarantees `float(str(x)) == x`, which the tag
preserves exactly, and a numeric rendering never equals a command name,
which the tagged comparison preserves. -/
inductive Cell where
  | str (s : String)
  | num (q : ℚ)
  deriving DecidableEq, Repr

/-- One token of the CSV text: a cell or a separator.  A Python CSV string
is modelled at this granularity; no emitted cell contains a comma or a
newline, so the comma/newline structure of the flat string is exactly the
token list. -/
inductive Tok where
  | cell (c : Cell)
  | comma
  | newline
  deriving DecidableEq, Repr

/-- The Python row of a command (`["Output", 1, 0]`, …), each field passed
through `str`. -/
def FCommand.fields : FCommand → List Cell
  | .lineSpeed s => [.str "Line Speed", .num s]
  | .dummyPoint x y z => [.str "Dummy Point", .num x, .num y, .num z]
  | .lineStart x y z => [.str "Line Start", .num x, .num y, .num z]
  | .linePassing x y z => [.str "Line Passing", .num x, .num y, .num z]
  | .lineEnd x y z => [.str "Line End", .num x, .num y, .num z]
  | .output ch st => [.str "Output", .num (ch : ℚ), .num (st : ℚ)]
  | .endProgram => [.str "End Program"]
  | .zClearance v => [.str "Z Clearance", .num (v : ℚ)]
  | .placeholder => [.str "SET ME AFTER CONVERTING COORD SYSTEM"]

/-- The inner loop of `fisnarCommandsToCSVString`: each field then a comma,
except the last field of a row, which is followed by a newline. -/
def rowToks : List Cell → List Tok
  | [] => []
  | [c] => [.cell c, .newline]
  | c :: rest => .cell c :: .comma :: rowToks rest

/-- `Converter.fisnarCommandsToCSVString`. -/
def fisnarCommandsToCSVString (cmds : List FCommand) : List Tok :=
  cmds.flatMap fun c => rowToks c.fields

/-- Python `str.split(sep)`: the maximal separator-free chunks; a trailing
separator yields a trailing empty chunk and splitting the empty string
yields one empty chunk, as in Python. -/
def splitTok (isSep : Tok → Bool) : List Tok → List (List Tok)
  | [] => [[]]
  | t :: ts =>
    if isSep t then [] :: splitTok isSep ts
    else
      match splitTok isSep ts with
      | [] => [[t]]
      | l :: ls => (t :: l) :: ls

/-- The Python string a comma-delimited chunk denotes: a lone cell is
itself, the empty chunk is the empty string.  (Adjacent cells never arise
from a serialized string.) -/
def cellOfChunk : List Tok → Cell
  | [.cell c] => c
  | _ => .str ""

/-- Python `float(cell)`: a number's rendering parses back to the number;
non-numeric text (command names, the empty string) raises (`none`). -/
def floatOfCell : Cell → Option ℚ
  | .num q => some q
  | .str _ => none

/-- Python `int(cell)`: succeeds only on integer-formatted text — the
rendering of a Python int; a fractional rendering or non-numeric text
raises. -/
def intOfCell : Cell → Option ℤ
  | .num q => if q.den = 1 then some q.num else none
  | .str _ => none

def intCell (c : Cell) : Option Cell := (intOfCell c).map fun n => Cell.num (n : ℚ)

def floatCell (c : Cell) : Option Cell := (floatOfCell c).map Cell.num

/-- `commands[i][j] = f(commands[i][j])`: convert the cell at position `j`
in place; a missing position is a Python IndexError. -/
def convertAt (f : Cell → Option Cell) (j : ℕ) (row : List Cell) :
    Option (List Cell) :=
  match row[j]? with
  | none => none
  | some c => (f c).map (row.set j ·)

/-- The typing step of `readFisnarCommandsFromCSV` for one row: `none` is a
Python exception (bad subscript or failed conversion), `some none` means the
row is popped as unrecognized (with a log line), `some (some r)` is the row
with its numeric fields converted. -/
def convertRow (row : List Cell) : Option (Option (List Cell)) :=
  match row.head? with
  | none => none
  | some c0 =>
    if c0 = Cell.str "Output" then
      ((convertAt intCell 1 row).bind (convertAt intCell 2)).map some
    else if c0 = Cell.str "Dummy Point" then
      (((convertAt floatCell 1 row).bind (convertAt floatCell 2)).bind
        (convertAt floatCell 3)).map some
    else if c0 = Cell.str "Line Speed" then
      (convertAt floatCell 1 row).map some
    else if c0 = Cell.str "Z Clearance" then
      (convertAt intCell 1 row).map some
    else if c0 = Cell.str "End Program" then
      some (some row)
    else if c0 = Cell.str "Line Start" ∨ c0 = Cell.str "Line End" ∨
        c0 = Cell.str "Line Passing" then
      (((convertAt floatCell 1 row).bind (convertAt floatCell 2)).bind
        (convertAt floatCell 3)).map some
    else
      some none

/-- The `while i < len(commands)` loop of `readFisnarCommandsFromCSV`:
`pop` + `i -= 1` + `i += 1` keeps the position, so the loop is a
filter-map over the rows. -/
def readRows : List (List Cell) → Option (List (List Cell))
  | [] => some []
  | row :: rest =>
    match convertRow row with
    | none => none
    | some none => readRows rest
    | some (some r) => (readRows rest).map (r :: ·)

/-- `Converter.readFisnarCommandsFromCSV`: split the text on newlines, each
line on commas, then type the rows, popping unrecognized ones. -/
def readFisnarCommandsFromCSV (s : List Tok) : Option (List (List Cell)) :=
  readRows ((splitTok (· == Tok.newline) s).map
    fun line => (splitTok (· == Tok.comma) line).map cellOfChunk)

/-- The device-command kinds of the data model (§3): everything except the
construction-time placeholder and the `Z Clearance` row, which only the
parser knows. -/
def FCommand.isModelKind : FCommand → Bool
  | .placeholder => false
  | .zClearance _ => false
  | _ => true

theorem intCell_intCast (n : ℤ) :
    intCell (Cell.num (n : ℚ)) = some (Cell.num (n : ℚ)) := by
  rw [intCell, intOfCell, if_pos (Rat.den_intCast n)]
  simp [Rat.num_intCast]

theorem convertRow_fields (c : FCommand) (h : c.isModelKind = true) :
    convertRow c.fields = some (some c.fields) := by
  cases c with
  | lineSpeed s =>
    simp [FCommand.fields, convertRow, convertAt, floatCell, floatOfCell]
  | dummyPoint x y z =>
    simp [FCommand.fields, convertRow, convertAt, floatCell, floatOfCell]
  | lineStart x y z =>
    simp [FCommand.fields, convertRow, convertAt, floatCell, floatOfCell]
  | linePassing x y z =>
    simp [FCommand.fields, convertRow, convertAt, floatCell, floatOfCell]
  | lineEnd x y z =>
    simp [FCommand.fields, convertRow, convertAt, floatCell, floatOfCell]
  | output ch st =>
    simp [FCommand.fields, convertRow, convertAt, intCell_intCast]
  | endProgram =>
    simp [FCommand.fields, convertRow]
  | zClearance v => cases h
  | placeholder => cases h

theorem splitTok_row (cells : List Cell) (ts : List Tok) (hne : cells ≠ []) :
    ∃ line, splitTok (· == Tok.newline) (rowToks cells ++ ts) =
        line :: splitTok (· == Tok.newline) ts
      ∧ (splitTok (· == Tok.comma) line).map cellOfChunk = cells := by
  induction cells with
  | nil => exact absurd rfl hne
  | cons c rest ih =>
    cases rest with
    | nil =>
      refine ⟨[Tok.cell c], ?_, rfl⟩
      rw [show rowToks [c] = [Tok.cell c, Tok.newline] from rfl]
      rw [List.cons_append, List.cons_append, List.nil_append]
      rw [splitTok, if_neg (by simp), splitTok,
        if_pos (show (Tok.newline == Tok.newline) = true from rfl)]
    | cons c2 rest2 =>
      obtain ⟨line, hsplit, hcells⟩ := ih (by simp)
      refine ⟨Tok.cell c :: Tok.comma :: line, ?_, ?_⟩
      · rw [show rowToks (c :: c2 :: rest2) = Tok.cell c :: Tok.comma ::
          rowToks (c2 :: rest2) from rfl]
        rw [List.cons_append, List.cons_append, splitTok, if_neg (by simp),
          splitTok, if_neg (by simp), hsplit]
      · rw [splitTok, if_neg (by simp), splitTok,
          if_pos (show (Tok.comma == Tok.comma) = true from rfl)]
        dsimp only
        rw [List.map_cons, hcells]
        rfl

/-- C7: for a Program containing only the data model's device-command kinds,
re-parsing the Text Codec's serialization yields field-for-field equality
with the original for every command; the parser's only divergence is
dropping unrecognized rows (here exactly the empty row left by the trailing
newline). -/
theorem C7_csv_round_trip (cmds : List FCommand)
    (hkind : ∀ c ∈ cmds, c.isModelKind = true) :
    readFisnarCommandsFromCSV (fisnarCommandsToCSVString cmds) =
      some (cmds.map FCommand.fields) := by
  rw [readFisnarCommandsFromCSV]
  induction cmds with
  | nil =>
    rw [show fisnarCommandsToCSVString [] = [] from rfl]
    rfl
  | cons c rest ih =>
    have hflat : fisnarCommandsToCSVString (c :: rest) =
        rowToks c.fields ++ fisnarCommandsToCSVString rest := by
      simp [fisnarCommandsToCSVString]
    have hne : c.fields ≠ [] := by cases c <;> simp [FCommand.fields]
    obtain ⟨line, hsplit, hcells⟩ :=
      splitTok_row c.fields (fisnarCommandsToCSVString rest) hne
    rw [hflat, hsplit, List.map_cons, hcells, readRows,
      convertRow_fields c (hkind c (List.mem_cons_self _ _)),
      ih (fun d hd => hkind d (List.mem_cons_of_mem _ hd))]
    rfl

theorem C7_witness :
    readFisnarCommandsFromCSV (fisnarCommandsToCSVString
        [FCommand.lineSpeed 30, FCommand.dummyPoint 1 2 3, FCommand.output 1 1,
          FCommand.lineStart 0 0 0, FCommand.linePassing 4 5 6,
          FCommand.lineEnd 7 8 9, FCommand.output 1 0, FCommand.endProgram]) =
      some ([FCommand.lineSpeed 30, FCommand.dummyPoint 1 2 3, FCommand.output 1 1,
          FCommand.lineStart 0 0 0, FCommand.linePassing 4 5 6,
          FCommand.lineEnd 7 8 9, FCommand.output 1 0,
          FCommand.endProgram].map FCommand.fields) :=
  C7_csv_round_trip
    [FCommand.lineSpeed 30, FCommand.dummyPoint 1 2 3, FCommand.output 1 1,
      FCommand.lineStart 0 0 0, FCommand.linePassing 4 5 6,
      FCommand.lineEnd 7 8 9, FCommand.output 1 0, FCommand.endProgram]
    (by decide)
